import Mathlib

/-! Shopify request validators (`validate.go`).

A shallow embedding of the four validators of package `shopifyhv`
(`OAuth`, `AppProxy`, `AppBridge`, `Webhook`) and proofs about them.

Go strings and byte slices are byte sequences, modelled as `List (Fin 256)`.
A `url.Values` (Go `map[string][]string`) is modelled as an association list
from keys to value sequences; a Go map holds each key once, which is the
predicate `Values.WF`.

The cryptographic primitive and the parsers of the Go standard library that
the validators call (`crypto/hmac` with `crypto/sha256`,
`base64.RawURLEncoding.DecodeString`, `json.Unmarshal`, `url.Parse` with
`(*URL).Hostname`) are not part of the repository: they are taken as the
parameter `StdLib`, and every theorem holds for every such library.
-/

namespace Shopifyhv

/-- One byte. -/
abbrev Byte := Fin 256

/-- Go `string` / `[]byte`: a finite sequence of bytes. -/
abbrev Bytes := List Byte

/-- The bytes of an ASCII string literal of the source. -/
def str (s : String) : Bytes := s.toList.map (fun c => Fin.ofNat c.toNat)

/-! ## Standard-library functions used by the validators -/

/-- Go `strings.HasPrefix`. -/
def HasPrefix : Bytes → Bytes → Bool
  | _, [] => true
  | [], _ :: _ => false
  | a :: s, b :: p => a == b && HasPrefix s p

/-- Go `strings.TrimPrefix`: `s` without the leading `p` when `s` starts with
`p`, and `s` itself otherwise. -/
def TrimPrefix (s p : Bytes) : Bytes :=
  if HasPrefix s p then s.drop p.length else s

/-- Go `strings.Split(s, sep)` for a one-byte separator: the pieces of `s`
between the occurrences of `sep`; always at least one piece. -/
def Split : Bytes → Byte → List Bytes
  | [], _ => [[]]
  | c :: s, sep =>
    if c = sep then [] :: Split s sep
    else
      match Split s sep with
      | [] => [[c]]
      | t :: ts => (c :: t) :: ts

/-- Go `strings.Join`. -/
def Join : List Bytes → Bytes → Bytes
  | [], _ => []
  | [a], _ => a
  | a :: b :: rest, sep => a ++ sep ++ Join (b :: rest) sep

/-- Go string comparison `a <= b`: lexicographic on bytes, a proper prefix
being smaller. -/
def strLE : Bytes → Bytes → Bool
  | [], _ => true
  | _ :: _, [] => false
  | a :: s, b :: t => a.val < b.val || (a == b && strLE s t)

/-- Go `sort.Strings`: the strings in ascending order. -/
def sortStrings (keys : List Bytes) : List Bytes :=
  keys.insertionSort (fun a b => strLE a b = true)

/-- The digits of `encoding/hex`. -/
def hextable : Bytes := str "0123456789abcdef"

/-- Go `hex.EncodeToString`: two lowercase digits per byte, high nibble
first. -/
def hexEncodeToString : Bytes → Bytes
  | [] => []
  | b :: rest =>
    hextable.getD (b.val / 16) 0 :: hextable.getD (b.val % 16) 0 :: hexEncodeToString rest

/-- The alphabet of `base64.StdEncoding`. -/
def encodeStd : Bytes :=
  str "ABCDEFGHIJKLMNOPQRSTUVWXYZabcdefghijklmnopqrstuvwxyz0123456789+/"

/-- Go `base64.StdEncoding.EncodeToString`: three bytes give four digits; a
last group of one or two bytes is padded with `=`. -/
def base64StdEncodeToString : Bytes → Bytes
  | [] => []
  | [a] =>
    [encodeStd.getD (a.val / 4) 0, encodeStd.getD (a.val % 4 * 16) 0, 61, 61]
  | [a, b] =>
    [encodeStd.getD (a.val / 4) 0, encodeStd.getD (a.val % 4 * 16 + b.val / 16) 0,
     encodeStd.getD (b.val % 16 * 4) 0, 61]
  | a :: b :: c :: rest =>
    encodeStd.getD (a.val / 4) 0 :: encodeStd.getD (a.val % 4 * 16 + b.val / 16) 0 ::
    encodeStd.getD (b.val % 16 * 4 + c.val / 64) 0 :: encodeStd.getD (c.val % 64) 0 ::
    base64StdEncodeToString rest

/-- Go `subtle.ConstantTimeCompare`: `0` when the lengths differ; otherwise
the OR of the XOR of every pair of bytes is accumulated over the whole length
and the result is `1` exactly when it is zero. -/
def ConstantTimeCompare (x y : Bytes) : Nat :=
  if x.length ≠ y.length then 0
  else
    let v := (x.zip y).foldl (fun v p => v ||| (p.1.val ^^^ p.2.val)) 0
    if v = 0 then 1 else 0

/-- Go `hmac.Equal`. -/
def hmacEqual (mac1 mac2 : Bytes) : Bool :=
  ConstantTimeCompare mac1 mac2 == 1

/-! ## `url.Values` -/

/-- Go `url.Values`, a `map[string][]string`: each key with its values in
arrival order. -/
abbrev Values := List (Bytes × List Bytes)

namespace Values

/-- A Go map holds each key once. -/
def WF (v : Values) : Prop := (v.map Prod.fst).Nodup

/-- Go map index `v[key]`: the values of `key`, `nil` when absent. -/
def index : Values → Bytes → List Bytes
  | [], _ => []
  | (k, vs) :: rest, key => if k = key then vs else index rest key

/-- Go `Values.Del`: remove the key and all its values. -/
def Del (v : Values) (key : Bytes) : Values :=
  v.filter (fun e => !decide (e.1 = key))

/-- The keys of the map, as gathered by `for k := range v`. -/
def keys (v : Values) : List Bytes := v.map Prod.fst

/-- The upper-case digits of `net/url`. -/
def upperhex : Bytes := str "0123456789ABCDEF"

/-- Go `net/url` `shouldEscape(c, encodeQueryComponent)`: only ASCII letters,
digits and `-`, `_`, `.`, `~` are left as they are. -/
def shouldEscape (c : Byte) : Bool :=
  if (97 ≤ c.val && c.val ≤ 122) || (65 ≤ c.val && c.val ≤ 90) || (48 ≤ c.val && c.val ≤ 57) then
    false
  else if c = 45 || c = 95 || c = 46 || c = 126 then false
  else true

/-- Modelled from the spec: `url.QueryEscape` belongs to the Go standard
library and is not among the repository's sources. It is the
percent-encoding of section 4.1, with the details of Go's documented
behaviour: a space becomes `+`, every other escaped byte becomes `%` and two
upper-case hexadecimal digits. -/
def QueryEscape : Bytes → Bytes
  | [] => []
  | c :: s =>
    if shouldEscape c then
      if c = 32 then 43 :: QueryEscape s
      else 37 :: upperhex.getD (c.val / 16) 0 :: upperhex.getD (c.val % 16) 0 :: QueryEscape s
    else c :: QueryEscape s

/-- Modelled from the spec: `url.Values.Encode` belongs to the Go standard
library and is not among the repository's sources. It is the re-encoding of
section 4.1 (`&`-joined `key=value` pairs in lexicographic key order), written
as Go's loop: the keys are sorted; every value of every key is written as
`key=value`, both escaped, with `&` before every pair but the first. -/
def Encode (v : Values) : Bytes :=
  if v.length = 0 then []
  else
    (sortStrings v.keys).foldl
      (fun buf k =>
        (v.index k).foldl
          (fun buf val =>
            (if buf.length > 0 then buf ++ str "&" else buf)
              ++ QueryEscape k ++ str "=" ++ QueryEscape val)
          buf)
      []

end Values

/-! ## The library parameter -/

/-- The anonymous struct `payload` of `AppBridge`, the target of
`json.Unmarshal`. -/
structure Payload where
  /-- Field `iss`. -/
  Issuer : Bytes
  /-- Field `dest`. -/
  Destination : Bytes
  /-- Field `aud`. -/
  Audience : Bytes
  /-- Field `sub`. -/
  Subject : Bytes
  /-- Field `exp`. -/
  ExpirationTime : Int
  /-- Field `nbf`. -/
  NotBefore : Int
  /-- Field `iat`. -/
  IssuedAt : Int
  /-- Field `jti`. -/
  TokenID : Bytes
  /-- Field `sid`. -/
  SessionID : Bytes
  deriving DecidableEq

/-- The functions of the Go standard library that the validators call and
that are not modelled here. Parsers return `none` where Go returns a non-nil
error. -/
structure StdLib where
  /-- The value of `h.Sum(nil)` after `h := hmac.New(sha256.New, key)` and
  `h.Write(message)`. -/
  hmacSHA256 : (key : Bytes) → (message : Bytes) → Bytes
  /-- The digest of SHA-256 has `sha256.Size = 32` bytes. -/
  hmacSHA256_length : ∀ key message, (hmacSHA256 key message).length = 32
  /-- Go `base64.RawURLEncoding.DecodeString`. -/
  rawURLDecodeString : Bytes → Option Bytes
  /-- Go `json.Unmarshal` into a zero `payload` struct. -/
  jsonUnmarshal : Bytes → Option Payload
  /-- The values of Go type `*url.URL`. -/
  URL : Type
  /-- Go `url.Parse`. -/
  urlParse : Bytes → Option URL
  /-- Go `(*URL).Hostname`, the only observation the validators make of a
  parsed URL. -/
  Hostname : URL → Bytes

/-! ## The validators -/

/-- The string `OAuth` feeds to the HMAC (lines 24 and 26): `params.Del("hmac")`
followed by `params.Encode()`. -/
def OAuth.encoded (params : Values) : Bytes :=
  (params.Del (str "hmac")).Encode

/-- Go `OAuth`, on `params = r.URL.Query()`. -/
def OAuth (L : StdLib) (params : Values) (secret : Bytes) : Bool :=
  if params.length = 0 || (params.index (str "hmac")).length = 0 then false
  else
    let signature := (params.index (str "hmac")).headD []
    let computed := hexEncodeToString (L.hmacSHA256 secret (OAuth.encoded params))
    hmacEqual signature computed

/-- The string `AppProxy` feeds to the HMAC (lines 39 to 48): after
`params.Del("signature")` the keys are sorted and `encoded` accumulates
`k + "=" + strings.Join(params[k], ",")` for every key. -/
def AppProxy.encoded (params : Values) : Bytes :=
  let params := params.Del (str "signature")
  let keys := sortStrings params.keys
  keys.foldl (fun encoded k => encoded ++ (k ++ str "=" ++ Join (params.index k) (str ","))) []

/-- Go `AppProxy`, on `params = r.URL.Query()`. -/
def AppProxy (L : StdLib) (params : Values) (secret : Bytes) : Bool :=
  if params.length = 0 || (params.index (str "signature")).length = 0 then false
  else
    let signature := (params.index (str "signature")).headD []
    let computed := hexEncodeToString (L.hmacSHA256 secret (AppProxy.encoded params))
    hmacEqual signature computed

/-- Go `AppBridge`, on `auth = r.Header.Get("Authorization")` and
`now = time.Now().Unix()`. -/
def AppBridge (L : StdLib) (auth key secret : Bytes) (now : Int) : Bytes × Bool :=
  if !HasPrefix auth (str "Bearer ") then ([], false)
  else
    match Split (TrimPrefix auth (str "Bearer ")) 46 with
    | [base64Header, base64Payload, base64Signature] =>
      match L.rawURLDecodeString base64Payload with
      | none => ([], false)
      | some rawPayload =>
        match L.jsonUnmarshal rawPayload with
        | none => ([], false)
        | some payload =>
          if payload.ExpirationTime < now then ([], false)
          else if payload.NotBefore > now then ([], false)
          else
            match L.urlParse payload.Issuer with
            | none => ([], false)
            | some issuerURL =>
              match L.urlParse payload.Destination with
              | none => ([], false)
              | some destinationURL =>
                if L.Hostname issuerURL ≠ L.Hostname destinationURL then ([], false)
                else if payload.Audience ≠ key then ([], false)
                else
                  match L.rawURLDecodeString base64Signature with
                  | none => ([], false)
                  | some signature =>
                    if !hmacEqual signature
                        (L.hmacSHA256 secret (base64Header ++ str "." ++ base64Payload)) then
                      ([], false)
                    else (L.Hostname destinationURL, true)
    | _ => ([], false)

/-- Go `Webhook`, on `signature = r.Header.Get("X-Shopify-Hmac-SHA256")`. -/
def Webhook (L : StdLib) (signature body secret : Bytes) : Bool :=
  let computed := base64StdEncodeToString (hexEncodeToString (L.hmacSHA256 secret body))
  hmacEqual signature computed

/-! ## The specification's vocabulary -/

/-- Ascending byte order on strings, as the specification words it:
lexicographic comparison of the bytes. -/
def LexLE (a b : Bytes) : Prop :=
  a = b ∨ List.Lex (fun x y : Byte => x < y) a b

/-- The reference signature `sign_oauth(P, S)` of the specification: the
lowercase hexadecimal HMAC-SHA256, under `S`, of the URL-encoding of `P`. -/
def sign_oauth (L : StdLib) (P : Values) (S : Bytes) : Bytes :=
  hexEncodeToString (L.hmacSHA256 S P.Encode)

/-- One key group of the AppProxy canonical string, as the specification
words it: the key, `=`, and the values of the key joined with a comma. -/
def proxyGroup (params : Values) (k : Bytes) : Bytes :=
  k ++ str "=" ++ (str ",").intercalate (params.index k)

/-- The pairs `key=value` of one key in the OAuth canonical string, as the
specification words it: both sides percent-encoded, values in arrival
order. -/
def queryPairs (params : Values) (k : Bytes) : List Bytes :=
  (params.index k).map (fun val => Values.QueryEscape k ++ str "=" ++ Values.QueryEscape val)

/-- The Authorization header value carrying the token with the three given
segments. -/
def bearer (header payload signature : Bytes) : Bytes :=
  str "Bearer " ++ header ++ str "." ++ payload ++ str "." ++ signature

/-- The conditions of the specification under which a bearer token is
accepted with the shop `shop`: the header value is `Bearer ` followed by three
dot-free segments separated by dots; the payload segment decodes and parses as
a claim set; `nbf <= now <= exp`; `iss` and `dest` parse as URLs with equal
hostnames; `aud` is the key; the signature segment decodes to the HMAC-SHA256,
under the secret, of the header segment, a dot and the payload segment; `shop`
is the hostname of `dest`. -/
def Accepted (L : StdLib) (auth key secret : Bytes) (now : Int) (shop : Bytes) : Prop :=
  ∃ (header payloadSeg signatureSeg rawPayload : Bytes) (payload : Payload)
    (issuerURL destinationURL : L.URL) (signature : Bytes),
    auth = bearer header payloadSeg signatureSeg ∧
    (46 : Byte) ∉ header ∧ (46 : Byte) ∉ payloadSeg ∧ (46 : Byte) ∉ signatureSeg ∧
    L.rawURLDecodeString payloadSeg = some rawPayload ∧
    L.jsonUnmarshal rawPayload = some payload ∧
    payload.NotBefore ≤ now ∧ now ≤ payload.ExpirationTime ∧
    L.urlParse payload.Issuer = some issuerURL ∧
    L.urlParse payload.Destination = some destinationURL ∧
    L.Hostname issuerURL = L.Hostname destinationURL ∧
    payload.Audience = key ∧
    L.rawURLDecodeString signatureSeg = some signature ∧
    signature = L.hmacSHA256 secret (header ++ str "." ++ payloadSeg) ∧
    shop = L.Hostname destinationURL

/-! ## The raw query string

`r.URL.Query()` parses the raw query of the request into a `url.Values`. -/

/-- Go `strings.Cut(s, sep)` for a one-byte separator: what stands before and
after the first separator; the whole string and the empty string when there
is none. -/
def Cut : Bytes → Byte → Bytes × Bytes
  | [], _ => ([], [])
  | c :: s, sep => if c = sep then ([], s) else ((c :: (Cut s sep).1), (Cut s sep).2)

/-- Go `net/url` `ishex`. -/
def ishex (c : Byte) : Bool :=
  (48 ≤ c.val && c.val ≤ 57) || (97 ≤ c.val && c.val ≤ 102) || (65 ≤ c.val && c.val ≤ 70)

/-- Go `net/url` `unhex`. -/
def unhex (c : Byte) : Nat :=
  if 48 ≤ c.val && c.val ≤ 57 then c.val - 48
  else if 97 ≤ c.val && c.val ≤ 102 then c.val - 97 + 10
  else if 65 ≤ c.val && c.val ≤ 70 then c.val - 65 + 10
  else 0

/-- Modelled from the spec: `url.QueryUnescape` belongs to the Go standard
library and is not among the repository's sources. It undoes the
percent-encoding: `%XX` becomes the byte `XX`, `+` becomes a space, and a `%`
that is not followed by two hexadecimal digits is an error. -/
def QueryUnescape : Bytes → Option Bytes
  | [] => some []
  | c :: s =>
    if c = 37 then
      match s with
      | h :: l :: rest =>
        if ishex h && ishex l then
          (QueryUnescape rest).map (fun t => Fin.ofNat (unhex h * 16 + unhex l) :: t)
        else none
      | _ => none
    else if c = 43 then (QueryUnescape s).map (fun t => 32 :: t)
    else (QueryUnescape s).map (fun t => c :: t)

/-- One step of Go `url.ParseQuery`: the pair that the piece `key=value`
between two `&` adds to the map, if any. A piece that is empty, holds a `;`
or does not unescape adds nothing. -/
def parsePair (piece : Bytes) : Option (Bytes × Bytes) :=
  if (59 : Byte) ∈ piece then none
  else if piece = [] then none
  else
    match QueryUnescape (Cut piece 61).1, QueryUnescape (Cut piece 61).2 with
    | some key, some value => some (key, value)
    | _, _ => none

/-- The pairs of a raw query string in arrival order. -/
def parsePairs (raw : Bytes) : List (Bytes × Bytes) :=
  (Split raw 38).filterMap parsePair

/-- Go `m[key] = append(m[key], value)`. -/
def Values.add : Values → Bytes → Bytes → Values
  | [], key, value => [(key, [value])]
  | (k, vs) :: rest, key, value =>
    if k = key then (k, vs ++ [value]) :: rest else (k, vs) :: Values.add rest key value

/-- Modelled from the spec: `(*URL).Query`, that is `url.ParseQuery` with its
error dropped, belongs to the Go standard library and is not among the
repository's sources. It gives the mapping of section 3 from every key to its
values in request order. -/
def Query (raw : Bytes) : Values :=
  (parsePairs raw).foldl (fun m pair => m.add pair.1 pair.2) []

/-- The original query string with the pairs of one key removed, the other
pairs in the order and encoding in which they arrived. -/
def withoutKey (raw key : Bytes) : Bytes :=
  (str "&").intercalate ((Split raw 38).filter (fun piece => !decide ((Cut piece 61).1 = key)))

/-! ## The shape of signatures -/

/-- A lowercase hexadecimal digit, `0-9a-f`. -/
def isLowerHex (b : Byte) : Bool :=
  (48 ≤ b.val && b.val ≤ 57) || (97 ≤ b.val && b.val ≤ 102)

/-- An upper-case hexadecimal letter, `A-F`. -/
def isUpperLetter (b : Byte) : Bool :=
  65 ≤ b.val && b.val ≤ 70

/-- A digest written in upper-case hexadecimal. -/
def hexEncodeUpper : Bytes → Bytes
  | [] => []
  | b :: rest =>
    Values.upperhex.getD (b.val / 16) 0 :: Values.upperhex.getD (b.val % 16) 0 ::
      hexEncodeUpper rest

/-! ## A sample library

A small instance of `StdLib`, used to run the validators on concrete inputs.
Its keyed digest is a 32-byte checksum, its segment decoder accepts the
strings that start with `x` and returns what follows, its claim sets are five
comma-separated fields (`iss`, `dest`, `aud`, then `exp` and `nbf` in unary),
and its URLs are `scheme/host`. -/

/-- The keyed checksum of the sample library. -/
def sampleDigest (key message : Bytes) : Bytes :=
  let seed := (key ++ 0 :: message).foldl (fun acc b => (acc * 31 + b.val + 1) % 256) 7
  (List.range 32).map (fun i => Fin.ofNat (seed + i))

/-- The segment decoder of the sample library. -/
def sampleDecode : Bytes → Option Bytes
  | [] => none
  | c :: rest => if c = 120 then some rest else none

/-- The claim-set parser of the sample library. -/
def sampleUnmarshal (raw : Bytes) : Option Payload :=
  match Split raw 44 with
  | [iss, dest, aud, exp, nbf] =>
    some { Issuer := iss, Destination := dest, Audience := aud, Subject := [],
           ExpirationTime := exp.length, NotBefore := nbf.length, IssuedAt := 0,
           TokenID := [], SessionID := [] }
  | _ => none

/-- The URL parser of the sample library: `scheme/host`. -/
def sampleParse (s : Bytes) : Option (Bytes × Bytes) :=
  match Split s 47 with
  | [scheme, host] => some (scheme, host)
  | _ => none

/-- The payload segment of the sample token: issuer `https/shop`, destination
`http/shop`, audience `key`, `exp = 5`, `nbf = 2`. -/
def samplePayloadSeg : Bytes := str "xhttps/shop,http/shop,key,eeeee,nn"

/-- The signature segment of the sample token under the secret `s`. -/
def sampleSignatureSeg : Bytes :=
  120 :: sampleDigest (str "s") (str "hd" ++ str "." ++ samplePayloadSeg)

/-- The sample library. -/
def sampleLib : StdLib where
  hmacSHA256 := sampleDigest
  hmacSHA256_length := by intro key message; simp [sampleDigest]
  rawURLDecodeString := sampleDecode
  jsonUnmarshal := sampleUnmarshal
  URL := Bytes × Bytes
  urlParse := sampleParse
  Hostname := fun u => u.2

/-- A URL parser that, as Go's `url.Parse` does, accepts the empty string: a
string without `/` is a host without scheme. -/
def sampleParseLax (s : Bytes) : Option (Bytes × Bytes) :=
  match Split s 47 with
  | [host] => some ([], host)
  | [scheme, host] => some (scheme, host)
  | _ => none

/-- The sample library with the URL parser that accepts the empty string. -/
def sampleLibLax : StdLib where
  hmacSHA256 := sampleDigest
  hmacSHA256_length := by intro key message; simp [sampleDigest]
  rawURLDecodeString := sampleDecode
  jsonUnmarshal := sampleUnmarshal
  URL := Bytes × Bytes
  urlParse := sampleParseLax
  Hostname := fun u => u.2

/-- The payload segment of a token without `iss` and `dest`: audience `key`,
`exp = 5`, `nbf = 2`. -/
def bareTokenPayloadSeg : Bytes := str "x,,key,eeeee,nn"

/-- The signature segment of the token without `iss` and `dest` under the
secret `s`. -/
def bareTokenSignatureSeg : Bytes :=
  120 :: sampleDigest (str "s") (str "hd" ++ str "." ++ bareTokenPayloadSeg)

/-- The signature segment of the sample token under the empty secret. -/
def sampleSignatureSegNoSecret : Bytes :=
  120 :: sampleDigest [] (str "hd" ++ str "." ++ samplePayloadSeg)

end Shopifyhv

/-! ## Lemmas on the comparator -/

namespace Shopifyhv

theorem or_eq_zero_iff (a b : Nat) : a ||| b = 0 ↔ a = 0 ∧ b = 0 := by
  constructor
  · intro h
    have hbit : ∀ i, a.testBit i = false ∧ b.testBit i = false := by
      intro i
      have := congrArg (fun n => Nat.testBit n i) h
      simpa [Nat.testBit_or] using this
    exact ⟨Nat.eq_of_testBit_eq (fun i => by simp [(hbit i).1]),
      Nat.eq_of_testBit_eq (fun i => by simp [(hbit i).2])⟩
  · rintro ⟨rfl, rfl⟩
    rfl

theorem foldl_or_eq_zero_iff (l : List (Byte × Byte)) (a : Nat) :
    l.foldl (fun v p => v ||| (p.1.val ^^^ p.2.val)) a = 0 ↔ a = 0 ∧ ∀ p ∈ l, p.1 = p.2 := by
  induction l generalizing a with
  | nil => simp
  | cons p l ih =>
    rw [List.foldl_cons, ih, or_eq_zero_iff, Nat.xor_eq_zero]
    simp only [List.mem_cons, forall_eq_or_imp, Fin.val_inj]
    tauto

theorem zip_all_eq_iff : ∀ (x y : Bytes), x.length = y.length →
    ((∀ p ∈ x.zip y, p.1 = p.2) ↔ x = y)
  | [], [], _ => by simp
  | [], _ :: _, h => by simp at h
  | _ :: _, [], h => by simp at h
  | a :: x, b :: y, h => by
    have ih := zip_all_eq_iff x y (by simpa using h)
    simp only [List.zip_cons_cons, List.mem_cons, forall_eq_or_imp, ih, List.cons.injEq]

/-- The comparator `hmac.Equal` decides equality of byte strings. -/
theorem hmacEqual_iff (x y : Bytes) : hmacEqual x y = true ↔ x = y := by
  unfold hmacEqual ConstantTimeCompare
  by_cases hlen : x.length = y.length
  · simp only [hlen, ne_eq, not_true_eq_false, if_false]
    have h := foldl_or_eq_zero_iff (x.zip y) 0
    have h2 := zip_all_eq_iff x y hlen
    by_cases hv : (x.zip y).foldl (fun v p => v ||| (p.1.val ^^^ p.2.val)) 0 = 0
    · simp only [hv, if_true, beq_self_eq_true, true_iff]
      exact h2.1 (h.1 hv).2
    · simp only [hv, if_false]
      constructor
      · intro h0; simp at h0
      · intro hxy; exact absurd (h.2 ⟨rfl, h2.2 hxy⟩) hv
  · simp only [ne_eq, hlen, not_false_eq_true, if_true]
    constructor
    · intro h0; simp at h0
    · intro hxy; exact absurd (congrArg List.length hxy) hlen

end Shopifyhv

/-! ## Lemmas on the order of strings and on sorting -/

namespace Shopifyhv

theorem lexLE_iff_le (a b : Bytes) : LexLE a b ↔ a ≤ b := by
  unfold LexLE
  rw [le_iff_eq_or_lt]
  rfl

theorem strLE_iff : ∀ a b : Bytes, strLE a b = true ↔ LexLE a b
  | [], [] => by simp [strLE, LexLE]
  | [], _ :: _ => by simp [strLE, LexLE, List.Lex.nil]
  | _ :: _, [] => by simp [strLE, LexLE, List.Lex.not_nil_right]
  | a :: s, b :: t => by
    have ih := strLE_iff s t
    simp only [strLE, Bool.or_eq_true, Bool.and_eq_true, decide_eq_true_eq, beq_iff_eq, ih]
    unfold LexLE
    constructor
    · rintro (h | ⟨rfl, rfl | h⟩)
      · exact Or.inr (List.Lex.rel h)
      · exact Or.inl rfl
      · exact Or.inr (List.Lex.cons h)
    · rintro (h | h)
      · injection h with h1 h2
        exact Or.inr ⟨h1, Or.inl h2⟩
      · cases h with
        | cons h => exact Or.inr ⟨rfl, Or.inr h⟩
        | rel h => exact Or.inl h

theorem strLE_iff_le (a b : Bytes) : strLE a b = true ↔ a ≤ b :=
  (strLE_iff a b).trans (lexLE_iff_le a b)

theorem strLE_total : IsTotal Bytes (fun a b => strLE a b = true) :=
  ⟨fun a b => by simp only [strLE_iff_le]; exact le_total a b⟩

theorem strLE_trans : IsTrans Bytes (fun a b => strLE a b = true) :=
  ⟨fun a b c => by simp only [strLE_iff_le]; exact le_trans⟩

theorem strLE_antisymm : IsAntisymm Bytes (fun a b => strLE a b = true) :=
  ⟨fun a b => by simp only [strLE_iff_le]; exact le_antisymm⟩

theorem sorted_strLE_iff (l : List Bytes) :
    l.Sorted (fun a b => strLE a b = true) ↔ l.Sorted LexLE := by
  unfold List.Sorted
  constructor <;> intro h <;> exact h.imp (fun hab => by first | exact (strLE_iff _ _).1 hab | exact (strLE_iff _ _).2 hab)

/-- The result of `sort.Strings` is the ascending arrangement of its input:
it is the only permutation of the input that is in ascending byte order. -/
theorem sortStrings_eq_iff (l keys : List Bytes) :
    sortStrings l = keys ↔ keys.Perm l ∧ keys.Sorted LexLE := by
  haveI := strLE_total
  haveI := strLE_trans
  haveI := strLE_antisymm
  constructor
  · rintro rfl
    exact ⟨List.perm_insertionSort _ l, (sorted_strLE_iff _).1 (List.sorted_insertionSort _ l)⟩
  · rintro ⟨hp, hs⟩
    exact List.eq_of_perm_of_sorted ((List.perm_insertionSort _ l).trans hp.symm)
      (List.sorted_insertionSort _ l) ((sorted_strLE_iff _).2 hs)

end Shopifyhv

/-! ## Lemmas on `url.Values` and on the canonical strings -/

namespace Shopifyhv

theorem Join_eq_intercalate : ∀ (xs : List Bytes) (sep : Bytes), Join xs sep = sep.intercalate xs
  | [], _ => rfl
  | [_], _ => by simp [Join, List.intercalate]
  | a :: b :: rest, sep => by
    have ih := Join_eq_intercalate (b :: rest) sep
    simp [Join, ih, List.intercalate, List.intersperse]

theorem foldl_append_eq_flatten {α : Type} (g : α → Bytes) (keys : List α) (init : Bytes) :
    keys.foldl (fun encoded k => encoded ++ g k) init = init ++ (keys.map g).flatten := by
  induction keys generalizing init with
  | nil => simp
  | cons k keys ih => simp [ih]

theorem index_ne_nil_length (params : Values) (k : Bytes) (h : params.index k ≠ []) :
    params.length ≠ 0 := by
  cases params with
  | nil => simp [Values.index] at h
  | cons e rest => simp

theorem index_append_of_not_mem (P₁ P₂ : Values) (k : Bytes) (h : k ∉ P₁.keys) :
    Values.index (P₁ ++ P₂) k = Values.index P₂ k := by
  induction P₁ with
  | nil => rfl
  | cons e P₁ ih =>
    obtain ⟨k1, vs⟩ := e
    simp only [Values.keys, List.map_cons, List.mem_cons, not_or] at h
    have hk : ¬ k1 = k := fun he => h.1 he.symm
    simp only [List.cons_append, Values.index, hk, if_false]
    exact ih h.2

theorem Del_of_not_mem (P : Values) (k : Bytes) (h : k ∉ P.keys) : P.Del k = P := by
  unfold Values.Del
  rw [List.filter_eq_self]
  intro e he
  have : e.1 ∈ P.keys := List.mem_map_of_mem Prod.fst he
  have hne : ¬ e.1 = k := fun heq => h (heq ▸ this)
  simp [hne]

theorem Del_insert (P₁ P₂ : Values) (k : Bytes) (vs : List Bytes) (h : k ∉ (P₁ ++ P₂).keys) :
    Values.Del (P₁ ++ (k, vs) :: P₂) k = P₁ ++ P₂ := by
  have h1 : k ∉ P₁.keys := fun hm => h (by simp [Values.keys] at hm ⊢; exact Or.inl hm)
  have h2 : k ∉ P₂.keys := fun hm => h (by simp [Values.keys] at hm ⊢; exact Or.inr hm)
  have e1 := Del_of_not_mem P₁ k h1
  have e2 := Del_of_not_mem P₂ k h2
  unfold Values.Del at *
  simp [List.filter_append, List.filter_cons, e1, e2]

theorem index_insert (P₁ P₂ : Values) (k : Bytes) (vs : List Bytes) (h : k ∉ (P₁ ++ P₂).keys) :
    Values.index (P₁ ++ (k, vs) :: P₂) k = vs := by
  have h1 : k ∉ P₁.keys := fun hm => h (by simp [Values.keys] at hm ⊢; exact Or.inl hm)
  rw [index_append_of_not_mem P₁ _ k h1]
  simp [Values.index]

/-- The verdict of `OAuth`, by cases on the values of `hmac`. -/
theorem OAuth_eq (L : StdLib) (params : Values) (secret : Bytes) :
    OAuth L params secret =
      match params.index (str "hmac") with
      | [] => false
      | sig :: _ => hmacEqual sig (hexEncodeToString (L.hmacSHA256 secret (OAuth.encoded params))) := by
  unfold OAuth
  cases h : params.index (str "hmac") with
  | nil => simp
  | cons sig rest =>
    have hlen := index_ne_nil_length params (str "hmac") (by simp [h])
    simp [hlen]

/-- The verdict of `AppProxy`, by cases on the values of `signature`. -/
theorem AppProxy_eq (L : StdLib) (params : Values) (secret : Bytes) :
    AppProxy L params secret =
      match params.index (str "signature") with
      | [] => false
      | sig :: _ =>
        hmacEqual sig (hexEncodeToString (L.hmacSHA256 secret (AppProxy.encoded params))) := by
  unfold AppProxy
  cases h : params.index (str "signature") with
  | nil => simp
  | cons sig rest =>
    have hlen := index_ne_nil_length params (str "signature") (by simp [h])
    simp [hlen]

/-- The canonical string of `AppProxy` is the concatenation of the key groups
of the sorted keys. -/
theorem AppProxy_encoded_eq (params : Values) :
    AppProxy.encoded params =
      ((sortStrings (params.Del (str "signature")).keys).map
        (proxyGroup (params.Del (str "signature")))).flatten := by
  unfold AppProxy.encoded
  simp only [foldl_append_eq_flatten, List.nil_append, Join_eq_intercalate]
  rfl

end Shopifyhv

/-! ## Lemmas on the encoders -/

namespace Shopifyhv

theorem hexEncodeToString_length (x : Bytes) : (hexEncodeToString x).length = 2 * x.length := by
  induction x with
  | nil => rfl
  | cons b rest ih => simp only [hexEncodeToString, List.length_cons, ih]; omega

theorem base64StdEncodeToString_length : ∀ x : Bytes,
    (base64StdEncodeToString x).length = 4 * ((x.length + 2) / 3)
  | [] => rfl
  | [_] => by simp [base64StdEncodeToString]
  | [_, _] => by simp [base64StdEncodeToString]
  | _ :: _ :: _ :: rest => by
    have ih := base64StdEncodeToString_length rest
    simp only [base64StdEncodeToString, List.length_cons, ih]
    omega

end Shopifyhv

/-! ## Lemmas on `strings.HasPrefix` and `strings.Split` -/

namespace Shopifyhv

theorem HasPrefix_iff : ∀ (s p : Bytes), HasPrefix s p = true ↔ ∃ rest, s = p ++ rest
  | s, [] => by simp [HasPrefix]
  | [], _ :: _ => by simp [HasPrefix]
  | a :: s, b :: p => by
    have ih := HasPrefix_iff s p
    simp only [HasPrefix, Bool.and_eq_true, beq_iff_eq, ih, List.cons_append, List.cons.injEq,
      exists_and_left]

theorem HasPrefix_append (p rest : Bytes) : HasPrefix (p ++ rest) p = true :=
  (HasPrefix_iff _ _).2 ⟨rest, rfl⟩

theorem TrimPrefix_append (p rest : Bytes) : TrimPrefix (p ++ rest) p = rest := by
  simp [TrimPrefix, HasPrefix_append]

theorem Split_ne_nil (s : Bytes) (sep : Byte) : Split s sep ≠ [] := by
  cases s with
  | nil => simp [Split]
  | cons c s =>
    unfold Split
    split
    · simp
    · split <;> simp

theorem Split_of_not_mem (a : Bytes) (sep : Byte) (h : sep ∉ a) : Split a sep = [a] := by
  induction a with
  | nil => rfl
  | cons c a ih =>
    simp only [List.mem_cons, not_or] at h
    have hc : ¬ c = sep := fun e => h.1 e.symm
    simp [Split, hc, ih h.2]

theorem Split_append_sep (a s : Bytes) (sep : Byte) (h : sep ∉ a) :
    Split (a ++ sep :: s) sep = a :: Split s sep := by
  induction a with
  | nil => simp [Split]
  | cons c a ih =>
    simp only [List.mem_cons, not_or] at h
    have hc : ¬ c = sep := fun e => h.1 e.symm
    simp [Split, hc, ih h.2]

/-- The pieces of `Split` hold no separator and, joined by the separator,
give the string back. -/
theorem Split_spec (s : Bytes) (sep : Byte) :
    [sep].intercalate (Split s sep) = s ∧ ∀ piece ∈ Split s sep, sep ∉ piece := by
  induction s with
  | nil => simp [Split, List.intercalate]
  | cons c s ih =>
    obtain ⟨ih1, ih2⟩ := ih
    by_cases hc : c = sep
    · subst hc
      have hne := Split_ne_nil s c
      cases hs : Split s c with
      | nil => exact absurd hs hne
      | cons t ts =>
        rw [hs] at ih1 ih2
        simp only [Split, if_true, hs]
        refine ⟨?_, ?_⟩
        · simp only [List.intercalate, List.intersperse, List.flatten] at ih1 ⊢
          rw [ih1]; rfl
        · intro piece hp
          simp only [List.mem_cons] at hp
          rcases hp with rfl | hp
          · simp
          · exact ih2 piece (by simpa using hp)
    · have hne := Split_ne_nil s sep
      cases hs : Split s sep with
      | nil => exact absurd hs hne
      | cons t ts =>
        rw [hs] at ih1 ih2
        simp only [Split, hc, if_false, hs]
        refine ⟨?_, ?_⟩
        · cases ts with
          | nil =>
            simp only [List.intercalate, List.intersperse, List.flatten, List.append_nil] at ih1 ⊢
            rw [ih1]
          | cons u us =>
            simp only [List.intercalate, List.intersperse, List.flatten, List.cons_append] at ih1 ⊢
            rw [ih1]
        · intro piece hp
          simp only [List.mem_cons] at hp
          rcases hp with rfl | hp
          · have := ih2 t (by simp)
            simp only [List.mem_cons, not_or]
            exact ⟨fun e => hc e.symm, this⟩
          · exact ih2 piece (by simp [hp])

/-- A string splits into exactly three pieces when it is three separator-free
pieces with one separator between each two. -/
theorem Split_eq_three_iff (s a b c : Bytes) (sep : Byte) :
    Split s sep = [a, b, c] ↔
      s = a ++ sep :: (b ++ sep :: c) ∧ sep ∉ a ∧ sep ∉ b ∧ sep ∉ c := by
  constructor
  · intro h
    obtain ⟨h1, h2⟩ := Split_spec s sep
    rw [h] at h1 h2
    refine ⟨?_, h2 a (by simp), h2 b (by simp), h2 c (by simp)⟩
    rw [← h1]
    simp [List.intercalate, List.intersperse]
  · rintro ⟨rfl, ha, hb, hc⟩
    rw [Split_append_sep a _ sep ha, Split_append_sep b _ sep hb, Split_of_not_mem c sep hc]

end Shopifyhv

/-! ## The number of pieces of `strings.Split` -/

namespace Shopifyhv

theorem Split_length (s : Bytes) (sep : Byte) : (Split s sep).length = s.count sep + 1 := by
  induction s with
  | nil => rfl
  | cons c s ih =>
    by_cases hc : c = sep
    · subst hc
      simp [Split, ih]
    · have hne := Split_ne_nil s sep
      cases hs : Split s sep with
      | nil => exact absurd hs hne
      | cons t ts =>
        rw [hs] at ih
        simp only [Split, hc, if_false, hs, List.length_cons] at ih ⊢
        rw [List.count_cons_of_ne (fun e => hc e.symm)]
        exact ih

end Shopifyhv

/-! ## Lemmas on `AppBridge` -/

namespace Shopifyhv

theorem bearer_eq (h p sg : Bytes) :
    bearer h p sg = str "Bearer " ++ (h ++ 46 :: (p ++ 46 :: sg)) := by
  have hdot : str "." = [46] := by decide
  simp [bearer, hdot]

/-- The run of `AppBridge` on a token of three dot-free segments, after the
prefix test and the split. -/
theorem AppBridge_bearer (L : StdLib) (h p sg key secret : Bytes) (now : Int)
    (hh : (46 : Byte) ∉ h) (hp : (46 : Byte) ∉ p) (hsg : (46 : Byte) ∉ sg) :
    AppBridge L (bearer h p sg) key secret now =
      match L.rawURLDecodeString p with
      | none => ([], false)
      | some rawPayload =>
        match L.jsonUnmarshal rawPayload with
        | none => ([], false)
        | some payload =>
          if payload.ExpirationTime < now then ([], false)
          else if payload.NotBefore > now then ([], false)
          else
            match L.urlParse payload.Issuer with
            | none => ([], false)
            | some issuerURL =>
              match L.urlParse payload.Destination with
              | none => ([], false)
              | some destinationURL =>
                if L.Hostname issuerURL ≠ L.Hostname destinationURL then ([], false)
                else if payload.Audience ≠ key then ([], false)
                else
                  match L.rawURLDecodeString sg with
                  | none => ([], false)
                  | some signature =>
                    if !hmacEqual signature (L.hmacSHA256 secret (h ++ str "." ++ p)) then
                      ([], false)
                    else (L.Hostname destinationURL, true) := by
  have hsplit : Split (h ++ 46 :: (p ++ 46 :: sg)) 46 = [h, p, sg] :=
    (Split_eq_three_iff _ h p sg 46).2 ⟨rfl, hh, hp, hsg⟩
  unfold AppBridge
  rw [bearer_eq, TrimPrefix_append, HasPrefix_append, hsplit]
  rfl

/-- A header value that is not a token of three dot-free segments after
`Bearer ` is rejected. -/
theorem AppBridge_malformed (L : StdLib) (auth key secret : Bytes) (now : Int)
    (h : ¬ ∃ h p sg, auth = bearer h p sg ∧ (46 : Byte) ∉ h ∧ (46 : Byte) ∉ p ∧ (46 : Byte) ∉ sg) :
    AppBridge L auth key secret now = ([], false) := by
  unfold AppBridge
  by_cases hpre : HasPrefix auth (str "Bearer ") = true
  · obtain ⟨rest, rfl⟩ := (HasPrefix_iff _ _).1 hpre
    rw [TrimPrefix_append]
    simp only [hpre, Bool.not_true, Bool.false_eq_true, if_false]
    split
    · rename_i a b c heq
      obtain ⟨h1, h2, h3, h4⟩ := (Split_eq_three_iff rest a b c 46).1 heq
      exact absurd ⟨a, b, c, by rw [bearer_eq, h1], h2, h3, h4⟩ h
    · rfl
  · simp [hpre]

/-- Every run of `AppBridge` fails with the empty shop or is accepted under
the conditions of the specification. -/
theorem AppBridge_cases (L : StdLib) (auth key secret : Bytes) (now : Int) :
    AppBridge L auth key secret now = ([], false) ∨
      ∃ shop, Accepted L auth key secret now shop ∧
        AppBridge L auth key secret now = (shop, true) := by
  by_cases hform : ∃ h p sg, auth = bearer h p sg ∧
      (46 : Byte) ∉ h ∧ (46 : Byte) ∉ p ∧ (46 : Byte) ∉ sg
  swap
  · exact Or.inl (AppBridge_malformed L auth key secret now hform)
  obtain ⟨h, p, sg, rfl, hh, hp, hsg⟩ := hform
  have hrun := AppBridge_bearer L h p sg key secret now hh hp hsg
  cases hraw : L.rawURLDecodeString p with
  | none => left; rw [hrun]; simp [hraw]
  | some raw =>
  cases hjson : L.jsonUnmarshal raw with
  | none => left; rw [hrun]; simp [hraw, hjson]
  | some payload =>
  by_cases hexp : payload.ExpirationTime < now
  · left; rw [hrun]; simp [hraw, hjson, hexp]
  by_cases hnbf : payload.NotBefore > now
  · left; rw [hrun]; simp [hraw, hjson, hexp, hnbf]
  cases hiu : L.urlParse payload.Issuer with
  | none => left; rw [hrun]; simp [hraw, hjson, hexp, hnbf, hiu]
  | some iu =>
  cases hdu : L.urlParse payload.Destination with
  | none => left; rw [hrun]; simp [hraw, hjson, hexp, hnbf, hiu, hdu]
  | some du =>
  by_cases hhost : L.Hostname iu = L.Hostname du
  swap
  · left; rw [hrun]; simp [hraw, hjson, hexp, hnbf, hiu, hdu, hhost]
  by_cases haud : payload.Audience = key
  swap
  · left; rw [hrun]; simp [hraw, hjson, hexp, hnbf, hiu, hdu, hhost, haud]
  cases hsig : L.rawURLDecodeString sg with
  | none => left; rw [hrun]; simp [hraw, hjson, hexp, hnbf, hiu, hdu, hhost, haud, hsig]
  | some sig =>
  by_cases hmac : sig = L.hmacSHA256 secret (h ++ str "." ++ p)
  swap
  · left
    have : hmacEqual sig (L.hmacSHA256 secret (h ++ str "." ++ p)) = false := by
      cases hv : hmacEqual sig (L.hmacSHA256 secret (h ++ str "." ++ p)) with
      | false => rfl
      | true => exact absurd ((hmacEqual_iff _ _).1 hv) hmac
    rw [hrun]
    simp only [hraw, hjson, hexp, hnbf, hiu, hdu, hhost, haud, hsig, this, if_false, ne_eq,
      not_true_eq_false, Bool.not_false, if_true]
  · right
    refine ⟨L.Hostname du, ⟨h, p, sg, raw, payload, iu, du, sig, rfl, hh, hp, hsg, hraw, hjson,
      not_lt.1 hnbf, not_lt.1 hexp, hiu, hdu, hhost, haud, hsig, hmac, rfl⟩, ?_⟩
    have : hmacEqual sig (L.hmacSHA256 secret (h ++ str "." ++ p)) = true :=
      (hmacEqual_iff _ _).2 hmac
    rw [hrun]
    simp only [hraw, hjson, hexp, hnbf, hiu, hdu, hhost, haud, hsig, this, if_false, ne_eq,
      not_true_eq_false, Bool.not_true, Bool.false_eq_true]

/-- The segments of a token are determined by the header value. -/
theorem bearer_inj (h p sg h2 p2 sg2 : Bytes)
    (hh : (46 : Byte) ∉ h) (hp : (46 : Byte) ∉ p) (hsg : (46 : Byte) ∉ sg)
    (hh2 : (46 : Byte) ∉ h2) (hp2 : (46 : Byte) ∉ p2) (hsg2 : (46 : Byte) ∉ sg2)
    (e : bearer h p sg = bearer h2 p2 sg2) : h = h2 ∧ p = p2 ∧ sg = sg2 := by
  rw [bearer_eq, bearer_eq] at e
  have e2 := List.append_cancel_left e
  have s1 := (Split_eq_three_iff _ h p sg 46).2 ⟨rfl, hh, hp, hsg⟩
  have s2 := (Split_eq_three_iff _ h2 p2 sg2 46).2 ⟨rfl, hh2, hp2, hsg2⟩
  rw [e2, s2] at s1
  simpa [eq_comm] using s1

/-- The conditions of the specification are exactly those under which
`AppBridge` accepts. -/
theorem AppBridge_accepted_iff (L : StdLib) (auth key secret : Bytes) (now : Int) (shop : Bytes) :
    AppBridge L auth key secret now = (shop, true) ↔ Accepted L auth key secret now shop := by
  constructor
  · intro hrun
    rcases AppBridge_cases L auth key secret now with hfail | ⟨shop2, hacc, hrun2⟩
    · rw [hfail] at hrun
      simp at hrun
    · rw [hrun2] at hrun
      injection hrun with h1 _
      exact h1 ▸ hacc
  · rintro ⟨h, p, sg, raw, payload, iu, du, sig, rfl, hh, hp, hsg, hraw, hjson, hnbf, hexp, hiu,
      hdu, hhost, haud, hsig, hmac, rfl⟩
    rw [AppBridge_bearer L h p sg key secret now hh hp hsg]
    have : hmacEqual sig (L.hmacSHA256 secret (h ++ str "." ++ p)) = true :=
      (hmacEqual_iff _ _).2 hmac
    simp only [hraw, hjson, not_lt.2 hnbf, not_lt.2 hexp, hiu, hdu, hhost, haud, hsig, this,
      if_false, ne_eq, not_true_eq_false, Bool.not_true, Bool.false_eq_true, gt_iff_lt]

end Shopifyhv

/-! ## Lemmas on `Values.Encode` -/

namespace Shopifyhv

theorem Del_cons (k key : Bytes) (vs : List Bytes) (P : Values) :
    Values.Del ((k, vs) :: P) key = if k = key then P.Del key else (k, vs) :: P.Del key := by
  by_cases h : k = key <;> simp [Values.Del, List.filter_cons, h]

theorem intercalate_cons (sep p : Bytes) (ps : List Bytes) :
    sep.intercalate (p :: ps) = p ++ (ps.map (fun q => sep ++ q)).flatten := by
  induction ps generalizing p with
  | nil => simp [List.intercalate]
  | cons q ps ih =>
    have h := ih q
    simp only [List.intercalate] at h ⊢
    simp only [List.intersperse, List.flatten_cons, List.map_cons, h, List.append_assoc]

theorem foldl_pairs_eq (sep : Bytes) (ps : List Bytes) (hne : ∀ p ∈ ps, p ≠ []) (buf : Bytes) :
    ps.foldl (fun buf pair => (if buf.length > 0 then buf ++ sep else buf) ++ pair) buf =
      if buf = [] then sep.intercalate ps else buf ++ (ps.map (fun q => sep ++ q)).flatten := by
  induction ps generalizing buf with
  | nil => by_cases hb : buf = [] <;> simp [hb, List.intercalate]
  | cons p ps ih =>
    have hp : p ≠ [] := hne p (by simp)
    have hps : ∀ q ∈ ps, q ≠ [] := fun q hq => hne q (by simp [hq])
    rw [List.foldl_cons, ih hps]
    by_cases hb : buf = []
    · subst hb
      simp [hp, intercalate_cons]
    · have hlen : buf.length > 0 := List.length_pos.2 hb
      simp [hb, hlen]

theorem foldl_flatten_eq {β : Type} (step : β → Bytes → β) (ls : List (List Bytes)) (init : β) :
    ls.flatten.foldl step init = ls.foldl (fun buf l => l.foldl step buf) init := by
  induction ls generalizing init with
  | nil => rfl
  | cons l ls ih => simp [List.foldl_append, ih]

theorem queryPairs_ne_nil (v : Values) (k : Bytes) : ∀ p ∈ queryPairs v k, p ≠ [] := by
  intro p hp
  simp only [queryPairs, List.mem_map] at hp
  obtain ⟨val, _, rfl⟩ := hp
  have : str "=" = [61] := by decide
  simp [this]

/-- The result of `Values.Encode` is the pairs of the sorted keys joined
with `&`. -/
theorem Encode_eq (v : Values) :
    v.Encode = (str "&").intercalate ((sortStrings v.keys).map (queryPairs v)).flatten := by
  unfold Values.Encode
  by_cases hlen : v.length = 0
  · have : v = [] := List.length_eq_zero.1 hlen
    subst this
    rfl
  · simp only [hlen, if_false]
    have hne : ∀ p ∈ ((sortStrings v.keys).map (queryPairs v)).flatten, p ≠ [] := by
      intro p hp
      simp only [List.mem_flatten, List.mem_map] at hp
      obtain ⟨l, ⟨k, _, rfl⟩, hpl⟩ := hp
      exact queryPairs_ne_nil v k p hpl
    have h := foldl_pairs_eq (str "&") _ hne []
    simp only [if_true] at h
    rw [← h, foldl_flatten_eq, List.foldl_map]
    congr 1
    funext buf k
    simp only [queryPairs, List.foldl_map, List.append_assoc]

end Shopifyhv

/-! ## Lemmas on the arrival order of keys -/

namespace Shopifyhv

theorem index_of_not_mem (P : Values) (k : Bytes) (h : k ∉ P.keys) : P.index k = [] := by
  have := index_append_of_not_mem P [] k h
  simpa [Values.index] using this

theorem WF_perm {P Q : Values} (h : P.Perm Q) (wf : P.WF) : Q.WF :=
  ((h.map Prod.fst).nodup_iff).1 wf

/-- A map index does not depend on the order in which the keys are listed. -/
theorem index_perm {P Q : Values} (h : P.Perm Q) (wf : P.WF) (k : Bytes) :
    P.index k = Q.index k := by
  induction h with
  | nil => rfl
  | cons e _ ih =>
    obtain ⟨k1, vs⟩ := e
    have wf2 : Values.WF _ := (List.nodup_cons.1 wf).2
    simp only [Values.index, ih wf2]
  | swap e1 e2 l =>
    obtain ⟨k1, vs1⟩ := e1
    obtain ⟨k2, vs2⟩ := e2
    have hne : k2 ≠ k1 := by
      intro he
      have := (List.nodup_cons.1 wf).1
      simp [he] at this
    simp only [Values.index]
    by_cases h1 : k1 = k
    · by_cases h2 : k2 = k
      · exact absurd (h2.trans h1.symm) hne
      · simp [h1, h2]
    · by_cases h2 : k2 = k <;> simp [h1, h2]
  | trans h1 _ ih1 ih2 => exact (ih1 wf).trans (ih2 (WF_perm h1 wf))

theorem Del_perm {P Q : Values} (h : P.Perm Q) (k : Bytes) : (P.Del k).Perm (Q.Del k) :=
  h.filter _

theorem WF_Del {P : Values} (wf : P.WF) (k : Bytes) : (P.Del k).WF :=
  List.Nodup.sublist ((List.filter_sublist P).map Prod.fst) wf

theorem keys_perm {P Q : Values} (h : P.Perm Q) : P.keys.Perm Q.keys :=
  h.map Prod.fst

theorem sortStrings_perm {l₁ l₂ : List Bytes} (h : l₁.Perm l₂) :
    sortStrings l₁ = sortStrings l₂ := by
  obtain ⟨hp, hs⟩ := (sortStrings_eq_iff l₂ (sortStrings l₂)).1 rfl
  exact (sortStrings_eq_iff l₁ (sortStrings l₂)).2 ⟨hp.trans h.symm, hs⟩

/-- The string `AppProxy` signs does not depend on the order in which the
keys are listed. -/
theorem AppProxy_encoded_perm {P Q : Values} (h : P.Perm Q) (wf : P.WF) :
    AppProxy.encoded P = AppProxy.encoded Q := by
  rw [AppProxy_encoded_eq, AppProxy_encoded_eq,
    sortStrings_perm (keys_perm (Del_perm h (str "signature")))]
  congr 2
  funext k
  simp only [proxyGroup, index_perm (Del_perm h (str "signature")) (WF_Del wf _) k]

/-- The result of `Values.Encode` does not depend on the order in which the
keys are listed. -/
theorem Encode_perm {P Q : Values} (h : P.Perm Q) (wf : P.WF) : P.Encode = Q.Encode := by
  rw [Encode_eq, Encode_eq, sortStrings_perm (keys_perm h)]
  congr 3
  funext k
  simp only [queryPairs, index_perm h wf k]

end Shopifyhv

/-! ## Lemmas on the values of one key -/

namespace Shopifyhv

theorem index_insert_ne (P₁ P₂ : Values) (k k2 : Bytes) (vs : List Bytes) (h : k ≠ k2) :
    Values.index (P₁ ++ (k, vs) :: P₂) k2 = Values.index (P₁ ++ P₂) k2 := by
  induction P₁ with
  | nil => simp [Values.index, h]
  | cons e P₁ ih =>
    obtain ⟨k1, vs1⟩ := e
    simp only [List.cons_append, Values.index]
    split
    · rfl
    · exact ih

theorem Del_insert_ne (P₁ P₂ : Values) (k key : Bytes) (vs : List Bytes) (h : k ≠ key) :
    Values.Del (P₁ ++ (k, vs) :: P₂) key = P₁.Del key ++ (k, vs) :: P₂.Del key := by
  simp [Values.Del, List.filter_append, List.filter_cons, h]

theorem not_mem_keys_Del (P : Values) (k key : Bytes) (h : k ∉ P.keys) : k ∉ (P.Del key).keys :=
  fun hm => h (((List.filter_sublist P).map Prod.fst).subset hm)

/-- When a key occurs once among the keys and only its group changes, the
concatenations of the groups differ in that one place. -/
theorem flatten_map_single_change (g g2 : Bytes → Bytes) (S K₁ K₂ : List Bytes) (k : Bytes)
    (hS : S.Perm (K₁ ++ k :: K₂)) (hk1 : k ∉ K₁) (hk2 : k ∉ K₂)
    (hsame : ∀ k2, k2 ≠ k → g k2 = g2 k2) :
    ∃ X Y, (S.map g).flatten = X ++ g k ++ Y ∧ (S.map g2).flatten = X ++ g2 k ++ Y := by
  have hmem : k ∈ S := hS.mem_iff.2 (by simp)
  obtain ⟨A, B, rfl⟩ := List.append_of_mem hmem
  have hAB : (A ++ B).Perm (K₁ ++ K₂) :=
    List.Perm.cons_inv ((List.perm_middle.symm.trans hS).trans List.perm_middle)
  have hnot : k ∉ A ++ B := fun hm => by
    have := hAB.mem_iff.1 hm
    simp only [List.mem_append] at this
    exact this.elim hk1 hk2
  have hA : k ∉ A := fun hm => hnot (List.mem_append_left _ hm)
  have hB : k ∉ B := fun hm => hnot (List.mem_append_right _ hm)
  have hmapA : A.map g = A.map g2 :=
    List.map_congr_left (fun a ha => hsame a (fun e => hA (e ▸ ha)))
  have hmapB : B.map g = B.map g2 :=
    List.map_congr_left (fun a ha => hsame a (fun e => hB (e ▸ ha)))
  refine ⟨(A.map g).flatten, (B.map g).flatten, ?_, ?_⟩
  · simp [List.append_assoc]
  · rw [hmapA, hmapB]
    simp [List.append_assoc]

/-- The string `AppProxy` signs, as a function of the values of one key. -/
theorem AppProxy_encoded_values (P₁ P₂ : Values) (k : Bytes) (vs vs2 : List Bytes)
    (hk : k ≠ str "signature") (hfresh : k ∉ (P₁ ++ P₂).keys) :
    ∃ X Y,
      AppProxy.encoded (P₁ ++ (k, vs) :: P₂) =
        X ++ (k ++ str "=" ++ (str ",").intercalate vs) ++ Y ∧
      AppProxy.encoded (P₁ ++ (k, vs2) :: P₂) =
        X ++ (k ++ str "=" ++ (str ",").intercalate vs2) ++ Y := by
  have h1 : k ∉ P₁.keys := fun hm => hfresh (by simp [Values.keys] at hm ⊢; exact Or.inl hm)
  have h2 : k ∉ P₂.keys := fun hm => hfresh (by simp [Values.keys] at hm ⊢; exact Or.inr hm)
  have hd1 := not_mem_keys_Del P₁ k (str "signature") h1
  have hd2 := not_mem_keys_Del P₂ k (str "signature") h2
  have hd : k ∉ (P₁.Del (str "signature") ++ P₂.Del (str "signature")).keys := by
    simp only [Values.keys, List.map_append, List.mem_append, not_or] at hd1 hd2 ⊢
    exact ⟨hd1, hd2⟩
  have hkeys : ∀ ws : List Bytes,
      (P₁.Del (str "signature") ++ (k, ws) :: P₂.Del (str "signature")).keys =
        (P₁.Del (str "signature")).keys ++ k :: (P₂.Del (str "signature")).keys := by
    intro ws
    simp [Values.keys]
  have hp := ((sortStrings_eq_iff ((P₁.Del (str "signature")).keys ++
    k :: (P₂.Del (str "signature")).keys) (sortStrings ((P₁.Del (str "signature")).keys ++
    k :: (P₂.Del (str "signature")).keys))).1 rfl).1
  obtain ⟨X, Y, e1, e2⟩ := flatten_map_single_change
    (proxyGroup (P₁.Del (str "signature") ++ (k, vs) :: P₂.Del (str "signature")))
    (proxyGroup (P₁.Del (str "signature") ++ (k, vs2) :: P₂.Del (str "signature")))
    _ _ _ k hp hd1 hd2
    (fun k2 hne => by
      simp only [proxyGroup, index_insert_ne _ _ k k2 _ (fun e => hne e.symm)])
  refine ⟨X, Y, ?_, ?_⟩
  · rw [AppProxy_encoded_eq, Del_insert_ne _ _ _ _ _ hk, hkeys, e1]
    simp only [proxyGroup, index_insert _ _ k vs hd]
  · rw [AppProxy_encoded_eq, Del_insert_ne _ _ _ _ _ hk, hkeys, e2]
    simp only [proxyGroup, index_insert _ _ k vs2 hd]

end Shopifyhv

/-! ## Lemmas on the parsed query -/

namespace Shopifyhv

theorem index_add (m : Values) (key value k : Bytes) :
    (m.add key value).index k = if key = k then m.index k ++ [value] else m.index k := by
  induction m with
  | nil => by_cases h : key = k <;> simp [Values.add, Values.index, h]
  | cons e m ih =>
    obtain ⟨k1, vs⟩ := e
    by_cases h1 : k1 = key
    · subst h1
      by_cases h : k1 = k <;> simp [Values.add, Values.index, h]
    · by_cases h : key = k
      · subst h
        simp [Values.add, Values.index, h1, ih]
      · by_cases h2 : k1 = k
        · subst h2
          simp [Values.add, Values.index, h1, h]
        · simp [Values.add, Values.index, h1, h, h2, ih]

/-- The values of a key in the parsed map are the values of its pairs in
arrival order. -/
theorem index_foldl_add (ps : List (Bytes × Bytes)) (m : Values) (k : Bytes) :
    (ps.foldl (fun m pair => m.add pair.1 pair.2) m).index k =
      m.index k ++ (ps.filter (fun pair => decide (pair.1 = k))).map Prod.snd := by
  induction ps generalizing m with
  | nil => simp
  | cons pair ps ih =>
    rw [List.foldl_cons, ih, index_add]
    by_cases h : pair.1 = k <;> simp [List.filter_cons, h]

theorem index_Query (raw k : Bytes) :
    (Query raw).index k =
      ((parsePairs raw).filter (fun pair => decide (pair.1 = k))).map Prod.snd := by
  unfold Query
  rw [index_foldl_add]
  rfl

theorem index_Del (v : Values) (key k : Bytes) :
    (v.Del key).index k = if k = key then [] else v.index k := by
  induction v with
  | nil => simp [Values.Del, Values.index]
  | cons e v ih =>
    obtain ⟨k1, vs⟩ := e
    rw [Del_cons]
    by_cases h1 : k1 = key
    · subst h1
      by_cases h : k = k1
      · subst h
        simpa using ih
      · have h2 : ¬ k1 = k := fun e => h e.symm
        simp only [if_true, ih, h, if_false, Values.index, h2]
    · simp only [h1, if_false, Values.index, ih]
      by_cases h : k1 = k
      · subst h
        simp [h1]
      · simp [h]

end Shopifyhv

/-! ## Lemmas on the `signature` entry -/

namespace Shopifyhv

theorem AppProxy_encoded_cons_signature (vs : List Bytes) (P : Values) :
    AppProxy.encoded ((str "signature", vs) :: P) = AppProxy.encoded P := by
  unfold AppProxy.encoded
  rw [Del_cons]
  simp

end Shopifyhv

/-! ## Lemmas on the digits of `hex.EncodeToString` -/

namespace Shopifyhv

theorem hextable_lower : ∀ n, n < 16 → isLowerHex (hextable.getD n 0) = true := by
  decide

theorem hexEncodeToString_lower (x : Bytes) : ∀ b ∈ hexEncodeToString x, isLowerHex b = true := by
  induction x with
  | nil => simp [hexEncodeToString]
  | cons c rest ih =>
    intro b hb
    simp only [hexEncodeToString, List.mem_cons] at hb
    rcases hb with rfl | rfl | hb
    · exact hextable_lower _ (by have := c.isLt; omega)
    · exact hextable_lower _ (by omega)
    · exact ih b hb

theorem isLowerHex_of_isUpperLetter (b : Byte) (h : isUpperLetter b = true) :
    isLowerHex b = false := by
  simp only [isUpperLetter, Bool.and_eq_true, decide_eq_true_eq] at h
  simp only [isLowerHex, Bool.or_eq_false_iff, Bool.and_eq_false_iff, decide_eq_false_iff_not]
  omega

end Shopifyhv

/-! ## The claims -/

namespace Shopifyhv

/-- C1: `OAuth` returns true exactly when an `hmac` parameter is present and
its first value equals the lowercase-hex HMAC-SHA256, under the secret, of the
URL-encoding of the parameters without `hmac`. It returns false without
parameters and without `hmac`; a parameter set without `hmac`, extended at any
place by `hmac = sign_oauth(P, S)`, is accepted, and with any other signature
it is rejected. -/
theorem OAuth_iff_hmac_matches (L : StdLib) (params : Values) (secret : Bytes) :
    (OAuth L params secret = true ↔
      ∃ sig rest, params.index (str "hmac") = sig :: rest ∧
        sig = hexEncodeToString (L.hmacSHA256 secret (params.Del (str "hmac")).Encode)) ∧
    (params = [] → OAuth L params secret = false) ∧
    (params.index (str "hmac") = [] → OAuth L params secret = false) ∧
    (∀ P₁ P₂ : Values, str "hmac" ∉ (P₁ ++ P₂).keys →
      OAuth L (P₁ ++ (str "hmac", [sign_oauth L (P₁ ++ P₂) secret]) :: P₂) secret = true ∧
      ∀ sig, sig ≠ sign_oauth L (P₁ ++ P₂) secret →
        OAuth L (P₁ ++ (str "hmac", [sig]) :: P₂) secret = false) := by
  refine ⟨?_, ?_, ?_, ?_⟩
  · rw [OAuth_eq]
    cases h : params.index (str "hmac") with
    | nil => simp
    | cons sig rest => simp [hmacEqual_iff, OAuth.encoded]
  · rintro rfl
    rfl
  · intro h
    rw [OAuth_eq, h]
  · intro P₁ P₂ hk
    have key : ∀ sig, OAuth L (P₁ ++ (str "hmac", [sig]) :: P₂) secret = true ↔
        sig = sign_oauth L (P₁ ++ P₂) secret := by
      intro sig
      rw [OAuth_eq, index_insert P₁ P₂ _ _ hk]
      simp only [hmacEqual_iff, OAuth.encoded, Del_insert P₁ P₂ _ _ hk, sign_oauth]
    refine ⟨(key _).2 rfl, fun sig hne => ?_⟩
    cases hv : OAuth L (P₁ ++ (str "hmac", [sig]) :: P₂) secret with
    | false => rfl
    | true => exact absurd ((key sig).1 hv) hne

/-- C2: `AppProxy` returns true exactly when a `signature` parameter is
present and its first value equals the lowercase-hex HMAC-SHA256, under the
secret, of the canonical string: for the remaining keys in ascending byte
order, the key groups `key=v1,v2,...` written one after the other with nothing
between them. It returns false without parameters and without `signature`. -/
theorem AppProxy_iff_signature_matches (L : StdLib) (params : Values) (secret : Bytes)
    (keys : List Bytes) (hperm : keys.Perm (params.Del (str "signature")).keys)
    (hsorted : keys.Sorted LexLE) :
    AppProxy.encoded params = (keys.map (proxyGroup (params.Del (str "signature")))).flatten ∧
    (AppProxy L params secret = true ↔
      ∃ sig rest, params.index (str "signature") = sig :: rest ∧
        sig = hexEncodeToString (L.hmacSHA256 secret
          (keys.map (proxyGroup (params.Del (str "signature")))).flatten)) ∧
    (params = [] → AppProxy L params secret = false) ∧
    (params.index (str "signature") = [] → AppProxy L params secret = false) := by
  have hkeys : sortStrings (params.Del (str "signature")).keys = keys :=
    (sortStrings_eq_iff _ _).2 ⟨hperm, hsorted⟩
  have henc := AppProxy_encoded_eq params
  rw [hkeys] at henc
  refine ⟨henc, ?_, ?_, ?_⟩
  · rw [AppProxy_eq]
    cases h : params.index (str "signature") with
    | nil => simp
    | cons sig rest => simp [hmacEqual_iff, henc]
  · rintro rfl
    rfl
  · intro h
    rw [AppProxy_eq, h]

/-- Witness of C2: the parameters `b=2&b=3&signature=00&a=1`, whose remaining
keys in ascending order are `a`, `b`. -/
theorem AppProxy_iff_signature_matches_witness :
    AppProxy.encoded
        [(str "b", [str "2", str "3"]), (str "signature", [str "00"]), (str "a", [str "1"])] =
      str "a=1b=2,3" ∧
    AppProxy sampleLib
        [(str "b", [str "2", str "3"]), (str "signature", [str "00"]), (str "a", [str "1"])]
        (str "k") = false := by
  have h := AppProxy_iff_signature_matches sampleLib
    [(str "b", [str "2", str "3"]), (str "signature", [str "00"]), (str "a", [str "1"])]
    (str "k") [str "a", str "b"]
    ((sortStrings_eq_iff [str "b", str "a"] [str "a", str "b"]).1 (by decide)).1
    ((sortStrings_eq_iff [str "b", str "a"] [str "a", str "b"]).1 (by decide)).2
  refine ⟨h.1.trans (by decide), ?_⟩
  cases hv : AppProxy sampleLib
      [(str "b", [str "2", str "3"]), (str "signature", [str "00"]), (str "a", [str "1"])]
      (str "k") with
  | false => rfl
  | true =>
    obtain ⟨sig, rest, h1, h2⟩ := h.2.1.1 hv
    have h3 : sig = str "00" := by
      have : Values.index
          [(str "b", [str "2", str "3"]), (str "signature", [str "00"]), (str "a", [str "1"])]
          (str "signature") = [str "00"] := by decide
      rw [this] at h1
      injection h1 with h1 _
      exact h1.symm
    rw [h3] at h2
    exact absurd h2 (by decide)

/-- C3: `Webhook` returns true exactly when the header value equals the
base64 standard encoding of the lowercase-hex text of HMAC-SHA256(secret,
body), the body being used as given; the base64 of the raw digest is
rejected; for body `{}` and secret `k` the accepted header is
base64(hex(HMAC-SHA256(`k`, `{}`))). -/
theorem Webhook_iff_header_matches (L : StdLib) (header body secret : Bytes) :
    (Webhook L header body secret = true ↔
      header = base64StdEncodeToString (hexEncodeToString (L.hmacSHA256 secret body))) ∧
    Webhook L (base64StdEncodeToString (L.hmacSHA256 secret body)) body secret = false ∧
    (Webhook L header (str "{}") (str "k") = true ↔
      header =
        base64StdEncodeToString (hexEncodeToString (L.hmacSHA256 (str "k") (str "{}")))) := by
  have key : ∀ hd b s, Webhook L hd b s = true ↔
      hd = base64StdEncodeToString (hexEncodeToString (L.hmacSHA256 s b)) := by
    intro hd b s
    simp only [Webhook, hmacEqual_iff]
  refine ⟨key _ _ _, ?_, key _ _ _⟩
  cases hv : Webhook L (base64StdEncodeToString (L.hmacSHA256 secret body)) body secret with
  | false => rfl
  | true =>
    have h := congrArg List.length ((key _ _ _).1 hv)
    simp only [base64StdEncodeToString_length, hexEncodeToString_length,
      L.hmacSHA256_length] at h
    omega

end Shopifyhv

namespace Shopifyhv

/-- C4: `AppBridge` returns ok = true exactly under the conditions of the
specification (`Accepted`): `Bearer ` prefix, three segments, payload segment
decodes and parses, `nbf <= now <= exp`, `iss` and `dest` parse with equal
hostnames, `aud` equals the key, and the decoded signature equals the raw
HMAC-SHA256 of header segment, dot, payload segment; the shop returned with
ok = true is the hostname of `dest`. -/
theorem AppBridge_ok_iff_accepted (L : StdLib) (auth key secret : Bytes) (now : Int) :
    ((AppBridge L auth key secret now).2 = true ↔ ∃ shop, Accepted L auth key secret now shop) ∧
    (∀ shop, AppBridge L auth key secret now = (shop, true) ↔
      Accepted L auth key secret now shop) := by
  refine ⟨⟨fun hok => ?_, fun ⟨shop, hacc⟩ => ?_⟩, fun shop => AppBridge_accepted_iff L auth key secret now shop⟩
  · rcases AppBridge_cases L auth key secret now with hfail | ⟨shop, hacc, _⟩
    · rw [hfail] at hok
      simp at hok
    · exact ⟨shop, hacc⟩
  · rw [(AppBridge_accepted_iff L auth key secret now shop).2 hacc]

/-- C5: whenever `AppBridge` returns ok = false, it returns the empty shop:
every failure is the pair of the empty string and false. -/
theorem AppBridge_failure_is_empty (L : StdLib) (auth key secret : Bytes) (now : Int)
    (hfail : (AppBridge L auth key secret now).2 = false) :
    AppBridge L auth key secret now = ([], false) := by
  rcases AppBridge_cases L auth key secret now with h | ⟨shop, _, h⟩
  · exact h
  · rw [h] at hfail
    simp at hfail

/-- Witness of C5: the sample token after its expiry, at `now = 6`. -/
theorem AppBridge_failure_is_empty_witness :
    AppBridge sampleLib (bearer (str "hd") samplePayloadSeg sampleSignatureSeg) (str "key")
      (str "s") 6 = ([], false) :=
  AppBridge_failure_is_empty sampleLib _ _ _ 6 (by set_option maxRecDepth 100000 in decide)

end Shopifyhv

namespace Shopifyhv

/-- C6: the temporal check of `AppBridge` is exact. A token whose decoded
payload has `exp < now` or `nbf > now` is rejected with the empty shop,
whatever the other checks say, in particular with `exp = now - 1`; a token
that passes all the other checks is accepted exactly when
`nbf <= now <= exp`, so `exp = now` and `nbf = now` are accepted. -/
theorem AppBridge_temporal_exact (L : StdLib) (h p sg key secret : Bytes) (now : Int)
    (rawPayload : Bytes) (payload : Payload)
    (hh : (46 : Byte) ∉ h) (hp : (46 : Byte) ∉ p) (hsg : (46 : Byte) ∉ sg)
    (hraw : L.rawURLDecodeString p = some rawPayload)
    (hjson : L.jsonUnmarshal rawPayload = some payload) :
    (payload.ExpirationTime < now ∨ payload.NotBefore > now →
      AppBridge L (bearer h p sg) key secret now = ([], false)) ∧
    (payload.ExpirationTime = now - 1 →
      AppBridge L (bearer h p sg) key secret now = ([], false)) ∧
    (∀ (issuerURL destinationURL : L.URL) (signature : Bytes),
      L.urlParse payload.Issuer = some issuerURL →
      L.urlParse payload.Destination = some destinationURL →
      L.Hostname issuerURL = L.Hostname destinationURL →
      payload.Audience = key →
      L.rawURLDecodeString sg = some signature →
      signature = L.hmacSHA256 secret (h ++ str "." ++ p) →
      ((AppBridge L (bearer h p sg) key secret now).2 = true ↔
        payload.NotBefore ≤ now ∧ now ≤ payload.ExpirationTime) ∧
      (payload.ExpirationTime = now → payload.NotBefore = now →
        (AppBridge L (bearer h p sg) key secret now).2 = true)) := by
  have hrun := AppBridge_bearer L h p sg key secret now hh hp hsg
  have hlate : payload.ExpirationTime < now ∨ payload.NotBefore > now →
      AppBridge L (bearer h p sg) key secret now = ([], false) := by
    intro ht
    rw [hrun]
    simp only [hraw, hjson]
    by_cases hexp : payload.ExpirationTime < now
    · simp [hexp]
    · have hnbf : payload.NotBefore > now := ht.resolve_left hexp
      simp [hexp, hnbf]
  refine ⟨hlate, fun he => hlate (Or.inl (by omega)), ?_⟩
  intro iu du sig hiu hdu hhost haud hsig hmac
  have hiff : (AppBridge L (bearer h p sg) key secret now).2 = true ↔
      payload.NotBefore ≤ now ∧ now ≤ payload.ExpirationTime := by
    constructor
    · intro hok
      by_contra hnot
      have ht : payload.ExpirationTime < now ∨ payload.NotBefore > now := by omega
      rw [hlate ht] at hok
      simp at hok
    · rintro ⟨hnbf, hexp⟩
      have hacc : Accepted L (bearer h p sg) key secret now (L.Hostname du) :=
        ⟨h, p, sg, rawPayload, payload, iu, du, sig, rfl, hh, hp, hsg, hraw, hjson, hnbf, hexp,
          hiu, hdu, hhost, haud, hsig, hmac, rfl⟩
      rw [(AppBridge_accepted_iff L _ key secret now _).2 hacc]
  exact ⟨hiff, fun he hn => hiff.2 ⟨by omega, by omega⟩⟩

/-- Witness of C6: the sample token (`exp = 5`, `nbf = 2`) is rejected at
`now = 6` and accepted at `now = 5` and at `now = 2`. -/
theorem AppBridge_temporal_exact_witness :
    AppBridge sampleLib (bearer (str "hd") samplePayloadSeg sampleSignatureSeg) (str "key")
      (str "s") 6 = ([], false) ∧
    ((AppBridge sampleLib (bearer (str "hd") samplePayloadSeg sampleSignatureSeg) (str "key")
      (str "s") 5).2 = true ↔ ((2 : Int) ≤ 5 ∧ (5 : Int) ≤ 5)) := by
  set_option maxRecDepth 100000 in
  exact ⟨(AppBridge_temporal_exact sampleLib (str "hd") samplePayloadSeg sampleSignatureSeg
      (str "key") (str "s") 6 (str "https/shop,http/shop,key,eeeee,nn")
      { Issuer := str "https/shop", Destination := str "http/shop", Audience := str "key",
        Subject := [], ExpirationTime := 5, NotBefore := 2, IssuedAt := 0, TokenID := [],
        SessionID := [] }
      (by decide) (by decide) (by decide) (by decide) (by decide)).1 (Or.inl (by decide)),
    ((AppBridge_temporal_exact sampleLib (str "hd") samplePayloadSeg sampleSignatureSeg
      (str "key") (str "s") 5 (str "https/shop,http/shop,key,eeeee,nn")
      { Issuer := str "https/shop", Destination := str "http/shop", Audience := str "key",
        Subject := [], ExpirationTime := 5, NotBefore := 2, IssuedAt := 0, TokenID := [],
        SessionID := [] }
      (by decide) (by decide) (by decide) (by decide) (by decide)).2.2
      (str "https", str "shop") (str "http", str "shop")
      (sampleDigest (str "s") (str "hd" ++ str "." ++ samplePayloadSeg))
      (by show sampleParse (str "https/shop") = some (str "https", str "shop"); decide)
      (by show sampleParse (str "http/shop") = some (str "http", str "shop"); decide)
      (by decide) (by decide) (by decide) (by decide)).1⟩

/-- C7: a token whose `iss` and `dest` parse as URLs with different hostnames
is rejected with the empty shop, whatever the other checks say; the check
compares the hostnames only, so with equal hostnames a token that passes the
other checks is accepted even when the two URLs differ. -/
theorem AppBridge_hostname_check (L : StdLib) (h p sg key secret : Bytes) (now : Int)
    (rawPayload : Bytes) (payload : Payload) (issuerURL destinationURL : L.URL)
    (hh : (46 : Byte) ∉ h) (hp : (46 : Byte) ∉ p) (hsg : (46 : Byte) ∉ sg)
    (hraw : L.rawURLDecodeString p = some rawPayload)
    (hjson : L.jsonUnmarshal rawPayload = some payload)
    (hiu : L.urlParse payload.Issuer = some issuerURL)
    (hdu : L.urlParse payload.Destination = some destinationURL) :
    (L.Hostname issuerURL ≠ L.Hostname destinationURL →
      AppBridge L (bearer h p sg) key secret now = ([], false)) ∧
    (∀ signature : Bytes,
      payload.NotBefore ≤ now → now ≤ payload.ExpirationTime →
      payload.Audience = key →
      L.rawURLDecodeString sg = some signature →
      signature = L.hmacSHA256 secret (h ++ str "." ++ p) →
      L.Hostname issuerURL = L.Hostname destinationURL →
      AppBridge L (bearer h p sg) key secret now = (L.Hostname destinationURL, true)) := by
  constructor
  · intro hne
    rw [AppBridge_bearer L h p sg key secret now hh hp hsg]
    simp only [hraw, hjson, hiu, hdu]
    split
    · rfl
    · split
      · rfl
      · simp [hne]
  · intro sig hnbf hexp haud hsig hmac hhost
    exact (AppBridge_accepted_iff L _ key secret now _).2
      ⟨h, p, sg, rawPayload, payload, issuerURL, destinationURL, sig, rfl, hh, hp, hsg, hraw,
        hjson, hnbf, hexp, hiu, hdu, hhost, haud, hsig, hmac, rfl⟩

/-- Witness of C7: the sample token, whose issuer `https/shop` and destination
`http/shop` differ in the scheme and share the hostname `shop`, is accepted at
`now = 3`. -/
theorem AppBridge_hostname_check_witness :
    AppBridge sampleLib (bearer (str "hd") samplePayloadSeg sampleSignatureSeg) (str "key")
      (str "s") 3 = (str "shop", true) := by
  set_option maxRecDepth 100000 in
  exact (AppBridge_hostname_check sampleLib (str "hd") samplePayloadSeg sampleSignatureSeg
      (str "key") (str "s") 3 (str "https/shop,http/shop,key,eeeee,nn")
      { Issuer := str "https/shop", Destination := str "http/shop", Audience := str "key",
        Subject := [], ExpirationTime := 5, NotBefore := 2, IssuedAt := 0, TokenID := [],
        SessionID := [] }
      (str "https", str "shop") (str "http", str "shop")
      (by decide) (by decide) (by decide) (by decide) (by decide)
      (by show sampleParse (str "https/shop") = some (str "https", str "shop"); decide)
      (by show sampleParse (str "http/shop") = some (str "http", str "shop"); decide)).2
      (sampleDigest (str "s") (str "hd" ++ str "." ++ samplePayloadSeg))
      (by decide) (by decide) (by decide) (by decide) (by decide) (by decide)

/-- C8: `AppBridge` rejects every structurally malformed token with the pair
of the empty shop and false: a header value that does not start with
`Bearer `, a remainder that does not hold exactly two dots (fewer or more than
three segments), and a token of three segments whose payload segment does not
decode. -/
theorem AppBridge_rejects_malformed (L : StdLib) (auth key secret : Bytes) (now : Int) :
    ((¬ ∃ rest, auth = str "Bearer " ++ rest) →
      AppBridge L auth key secret now = ([], false)) ∧
    (∀ rest, auth = str "Bearer " ++ rest → rest.count 46 ≠ 2 →
      AppBridge L auth key secret now = ([], false)) ∧
    (∀ h p sg, auth = bearer h p sg →
      (46 : Byte) ∉ h → (46 : Byte) ∉ p → (46 : Byte) ∉ sg →
      L.rawURLDecodeString p = none →
      AppBridge L auth key secret now = ([], false)) := by
  refine ⟨fun hpre => ?_, fun rest hauth hcount => ?_, fun h p sg hauth hh hp hsg hraw => ?_⟩
  · have : HasPrefix auth (str "Bearer ") = false := by
      cases hv : HasPrefix auth (str "Bearer ") with
      | false => rfl
      | true => exact absurd ((HasPrefix_iff _ _).1 hv) hpre
    simp [AppBridge, this]
  · subst hauth
    unfold AppBridge
    rw [TrimPrefix_append, HasPrefix_append]
    simp only [Bool.not_true, Bool.false_eq_true, if_false]
    split
    · rename_i a b c heq
      have hlen := Split_length rest 46
      rw [heq] at hlen
      simp at hlen
      omega
    · rfl
  · subst hauth
    rw [AppBridge_bearer L h p sg key secret now hh hp hsg]
    simp [hraw]

end Shopifyhv

namespace Shopifyhv

/-- C9, as stated, fails: for the parameter set `shop`, `path_prefix`,
`signature` the string `AppProxy` signs is not
`path_prefix=/a,shop=x.myshopify.com`, and a signature computed over that
string is rejected (sample library, secret `k`). -/
theorem AppProxy_concrete_case_counterexample :
    AppProxy.encoded
        [(str "shop", [str "x.myshopify.com"]), (str "path_prefix", [str "/a"]),
          (str "signature", [str "00"])] ≠
      str "path_prefix=/a,shop=x.myshopify.com" ∧
    AppProxy sampleLib
        [(str "shop", [str "x.myshopify.com"]), (str "path_prefix", [str "/a"]),
          (str "signature", [hexEncodeToString
            (sampleLib.hmacSHA256 (str "k") (str "path_prefix=/a,shop=x.myshopify.com"))])]
        (str "k") = false := by
  set_option maxRecDepth 100000 in
  decide

/-- C9, amended: for the parameter set `shop`, `path_prefix`, `signature` the
string `AppProxy` signs is exactly `path_prefix=/ashop=x.myshopify.com`, with
nothing between the two key groups, and `AppProxy` returns true exactly when
the signature equals the lowercase-hex HMAC-SHA256 of that string under the
secret. -/
theorem AppProxy_concrete_case (L : StdLib) (sig secret : Bytes) :
    AppProxy.encoded
        [(str "shop", [str "x.myshopify.com"]), (str "path_prefix", [str "/a"]),
          (str "signature", [sig])] =
      str "path_prefix=/ashop=x.myshopify.com" ∧
    (AppProxy L
        [(str "shop", [str "x.myshopify.com"]), (str "path_prefix", [str "/a"]),
          (str "signature", [sig])] secret = true ↔
      sig = hexEncodeToString
        (L.hmacSHA256 secret (str "path_prefix=/ashop=x.myshopify.com"))) := by
  have hdel : Values.Del
      [(str "shop", [str "x.myshopify.com"]), (str "path_prefix", [str "/a"]),
        (str "signature", [sig])] (str "signature") =
      [(str "shop", [str "x.myshopify.com"]), (str "path_prefix", [str "/a"])] := by
    have h1 : str "shop" ≠ str "signature" := by decide
    have h2 : str "path_prefix" ≠ str "signature" := by decide
    simp [Del_cons, h1, h2, Values.Del]
  have henc : AppProxy.encoded
      [(str "shop", [str "x.myshopify.com"]), (str "path_prefix", [str "/a"]),
        (str "signature", [sig])] = str "path_prefix=/ashop=x.myshopify.com" := by
    unfold AppProxy.encoded
    rw [hdel]
    decide
  have hidx : Values.index
      [(str "shop", [str "x.myshopify.com"]), (str "path_prefix", [str "/a"]),
        (str "signature", [sig])] (str "signature") = [sig] := by
    have h1 : str "shop" ≠ str "signature" := by decide
    have h2 : str "path_prefix" ≠ str "signature" := by decide
    simp [Values.index, h1, h2]
  refine ⟨henc, ?_⟩
  rw [AppProxy_eq, hidx, henc]
  simp only [hmacEqual_iff]

/-- C10: the string `OAuth` signs is the pairs `key=value` of the parameters
without `hmac`, both sides percent-encoded, joined with `&`, the keys in
ascending order and the values of one key in arrival order; for `shop`,
`code`, `hmac` and the secret `shhh` it is `code=abc&shop=x.myshopify.com`,
and `OAuth` returns true exactly when the signature equals the lowercase-hex
HMAC-SHA256 of that string under `shhh`. -/
theorem OAuth_encoded_pairs (L : StdLib) (params : Values) (keys : List Bytes) (sig : Bytes)
    (hperm : keys.Perm (params.Del (str "hmac")).keys) (hsorted : keys.Sorted LexLE) :
    OAuth.encoded params =
      (str "&").intercalate (keys.map (queryPairs (params.Del (str "hmac")))).flatten ∧
    OAuth.encoded
        [(str "shop", [str "x.myshopify.com"]), (str "code", [str "abc"]), (str "hmac", [sig])] =
      str "code=abc&shop=x.myshopify.com" ∧
    (OAuth L
        [(str "shop", [str "x.myshopify.com"]), (str "code", [str "abc"]), (str "hmac", [sig])]
        (str "shhh") = true ↔
      sig = hexEncodeToString (L.hmacSHA256 (str "shhh") (str "code=abc&shop=x.myshopify.com"))) := by
  have hkeys : sortStrings (params.Del (str "hmac")).keys = keys :=
    (sortStrings_eq_iff _ _).2 ⟨hperm, hsorted⟩
  have hdel : Values.Del
      [(str "shop", [str "x.myshopify.com"]), (str "code", [str "abc"]), (str "hmac", [sig])]
      (str "hmac") = [(str "shop", [str "x.myshopify.com"]), (str "code", [str "abc"])] := by
    have h1 : str "shop" ≠ str "hmac" := by decide
    have h2 : str "code" ≠ str "hmac" := by decide
    simp [Del_cons, h1, h2, Values.Del]
  have henc : OAuth.encoded
      [(str "shop", [str "x.myshopify.com"]), (str "code", [str "abc"]), (str "hmac", [sig])] =
      str "code=abc&shop=x.myshopify.com" := by
    unfold OAuth.encoded
    rw [hdel]
    decide
  have hidx : Values.index
      [(str "shop", [str "x.myshopify.com"]), (str "code", [str "abc"]), (str "hmac", [sig])]
      (str "hmac") = [sig] := by
    have h1 : str "shop" ≠ str "hmac" := by decide
    have h2 : str "code" ≠ str "hmac" := by decide
    simp [Values.index, h1, h2]
  refine ⟨?_, henc, ?_⟩
  · unfold OAuth.encoded
    rw [Encode_eq, hkeys]
  · rw [OAuth_eq, hidx, henc]
    simp only [hmacEqual_iff]

/-- Witness of C10: the parameters `b=x y&b=z&hmac=00&a=1`, whose remaining
keys in ascending order are `a`, `b`. -/
theorem OAuth_encoded_pairs_witness :
    OAuth.encoded
        [(str "b", [str "x y", str "z"]), (str "hmac", [str "00"]), (str "a", [str "1"])] =
      str "a=1&b=x+y&b=z" :=
  (OAuth_encoded_pairs sampleLib
    [(str "b", [str "x y", str "z"]), (str "hmac", [str "00"]), (str "a", [str "1"])]
    [str "a", str "b"] (str "00")
    ((sortStrings_eq_iff [str "b", str "a"] [str "a", str "b"]).1 (by decide)).1
    ((sortStrings_eq_iff [str "b", str "a"] [str "a", str "b"]).1 (by decide)).2).1.trans
    (by decide)

end Shopifyhv

namespace Shopifyhv

/-- C11: `AppProxy` does not depend on the arrival order of the keys. Two
parameter sets that hold the same keys with the same value sequences, listed
in a different order, have the same canonical string and the same verdict
under every secret. -/
theorem AppProxy_key_order_invariant (L : StdLib) (P Q : Values) (secret : Bytes)
    (wf : P.WF) (h : P.Perm Q) :
    AppProxy.encoded P = AppProxy.encoded Q ∧ AppProxy L P secret = AppProxy L Q secret := by
  have henc := AppProxy_encoded_perm h wf
  refine ⟨henc, ?_⟩
  rw [AppProxy_eq, AppProxy_eq, index_perm h wf (str "signature"), henc]

/-- Witness of C11: the parameters `b=2&b=3&signature=00&a=1` and
`a=1&signature=00&b=2&b=3`. -/
theorem AppProxy_key_order_invariant_witness :
    AppProxy.encoded
        [(str "b", [str "2", str "3"]), (str "signature", [str "00"]), (str "a", [str "1"])] =
      AppProxy.encoded
        [(str "a", [str "1"]), (str "signature", [str "00"]), (str "b", [str "2", str "3"])] :=
  (AppProxy_key_order_invariant sampleLib
    [(str "b", [str "2", str "3"]), (str "signature", [str "00"]), (str "a", [str "1"])]
    [(str "a", [str "1"]), (str "signature", [str "00"]), (str "b", [str "2", str "3"])]
    (str "k") (by unfold Values.WF; decide) (by decide)).1

end Shopifyhv

namespace Shopifyhv

/-- C12, as stated, fails: the values `1`, `2` of the key `a` and their
permutation `2`, `1` give different canonical strings, and a signature that
`AppProxy` accepts for the first is rejected for the second (sample library,
secret `k`). -/
theorem AppProxy_value_order_counterexample :
    AppProxy.encoded [(str "a", [str "1", str "2"])] ≠
      AppProxy.encoded [(str "a", [str "2", str "1"])] ∧
    AppProxy sampleLib
        [(str "a", [str "1", str "2"]),
          (str "signature", [hexEncodeToString (sampleLib.hmacSHA256 (str "k") (str "a=1,2"))])]
        (str "k") = true ∧
    AppProxy sampleLib
        [(str "a", [str "2", str "1"]),
          (str "signature", [hexEncodeToString (sampleLib.hmacSHA256 (str "k") (str "a=1,2"))])]
        (str "k") = false := by
  set_option maxRecDepth 100000 in
  decide

/-- C12, amended: the canonical string of `AppProxy` keeps the values of a key
in arrival order. Replacing the values of one key, in particular permuting
them, leaves the canonical string unchanged exactly when the values joined
with commas give the same string, and then the verdict is unchanged too. -/
theorem AppProxy_value_order (L : StdLib) (P₁ P₂ : Values) (k secret : Bytes)
    (vs vs2 : List Bytes) (hk : k ≠ str "signature") (hfresh : k ∉ (P₁ ++ P₂).keys) :
    (AppProxy.encoded (P₁ ++ (k, vs) :: P₂) = AppProxy.encoded (P₁ ++ (k, vs2) :: P₂) ↔
      (str ",").intercalate vs = (str ",").intercalate vs2) ∧
    ((str ",").intercalate vs = (str ",").intercalate vs2 →
      AppProxy L (P₁ ++ (k, vs) :: P₂) secret = AppProxy L (P₁ ++ (k, vs2) :: P₂) secret) := by
  obtain ⟨X, Y, e1, e2⟩ := AppProxy_encoded_values P₁ P₂ k vs vs2 hk hfresh
  have hiff : AppProxy.encoded (P₁ ++ (k, vs) :: P₂) =
      AppProxy.encoded (P₁ ++ (k, vs2) :: P₂) ↔
      (str ",").intercalate vs = (str ",").intercalate vs2 := by
    rw [e1, e2]
    constructor
    · intro h
      have h1 := List.append_cancel_right h
      have h2 := List.append_cancel_left h1
      exact List.append_cancel_left h2
    · intro h
      rw [h]
  refine ⟨hiff, fun h => ?_⟩
  rw [AppProxy_eq, AppProxy_eq, hiff.2 h, index_insert_ne _ _ k _ vs hk,
    index_insert_ne _ _ k _ vs2 hk]

/-- Witness of C12: the values `1,2` and `3` against `1` and `2,3` of the key
`a` next to the key `b`; both join to `1,2,3`. -/
theorem AppProxy_value_order_witness :
    AppProxy.encoded [(str "b", [str "0"]), (str "a", [str "1,2", str "3"])] =
      AppProxy.encoded [(str "b", [str "0"]), (str "a", [str "1", str "2,3"])] :=
  ((AppProxy_value_order sampleLib [(str "b", [str "0"])] [] (str "a") (str "k")
    [str "1,2", str "3"] [str "1", str "2,3"] (by decide) (by decide)).1).2 (by decide)

end Shopifyhv

namespace Shopifyhv

/-- C13, as stated, fails: for the raw query `b=1&a=2&hmac=00` the string
`OAuth` signs is not the original `b=1&a=2` (the pairs are sorted by key), and
for `a=%7e&hmac=00` it is not the original `a=%7e` (the escapes are written
anew). -/
theorem OAuth_raw_query_counterexample :
    OAuth.encoded (Query (str "b=1&a=2&hmac=00")) ≠
      withoutKey (str "b=1&a=2&hmac=00") (str "hmac") ∧
    OAuth.encoded (Query (str "b=1&a=2&hmac=00")) = str "a=2&b=1" ∧
    withoutKey (str "b=1&a=2&hmac=00") (str "hmac") = str "b=1&a=2" ∧
    OAuth.encoded (Query (str "a=%7e&hmac=00")) ≠
      withoutKey (str "a=%7e&hmac=00") (str "hmac") ∧
    OAuth.encoded (Query (str "a=%7e&hmac=00")) = str "a=~" ∧
    withoutKey (str "a=%7e&hmac=00") (str "hmac") = str "a=%7e" := by
  set_option maxRecDepth 100000 in
  decide

/-- C13, amended: for every raw query string, the string `OAuth` signs is the
re-encoding of the parsed pairs other than `hmac`: for the remaining keys in
ascending order, the pairs of each key in arrival order, key and value
percent-encoded anew, joined with `&`. -/
theorem OAuth_encoded_of_raw (raw : Bytes) (keys : List Bytes)
    (hperm : keys.Perm ((Query raw).Del (str "hmac")).keys) (hsorted : keys.Sorted LexLE) :
    OAuth.encoded (Query raw) =
      (str "&").intercalate
        (keys.map (fun k =>
          ((parsePairs raw).filter (fun pair => decide (pair.1 = k))).map
            (fun pair => Values.QueryEscape k ++ str "=" ++ Values.QueryEscape pair.2))).flatten := by
  have hkeys : sortStrings ((Query raw).Del (str "hmac")).keys = keys :=
    (sortStrings_eq_iff _ _).2 ⟨hperm, hsorted⟩
  unfold OAuth.encoded
  rw [Encode_eq, hkeys]
  congr 2
  apply List.map_congr_left
  intro k hk
  have hmem : k ∈ ((Query raw).Del (str "hmac")).keys := hperm.mem_iff.1 hk
  have hne : k ≠ str "hmac" := by
    intro he
    simp only [Values.keys, Values.Del, List.mem_map, List.mem_filter] at hmem
    obtain ⟨e, ⟨_, h2⟩, h3⟩ := hmem
    simp [h3, he] at h2
  simp only [queryPairs, index_Del, hne, if_false, index_Query, List.map_map]
  rfl

/-- Witness of C13: the raw query `b=x+y&a=%7e&hmac=00&b=z`, whose remaining
keys in ascending order are `a`, `b`. -/
theorem OAuth_encoded_of_raw_witness :
    OAuth.encoded (Query (str "b=x+y&a=%7e&hmac=00&b=z")) = str "a=~&b=x+y&b=z" := by
  set_option maxRecDepth 100000 in
  exact (OAuth_encoded_of_raw (str "b=x+y&a=%7e&hmac=00&b=z") [str "a", str "b"]
    ((sortStrings_eq_iff [str "b", str "a"] [str "a", str "b"]).1 (by decide)).1
    ((sortStrings_eq_iff [str "b", str "a"] [str "a", str "b"]).1 (by decide)).2).trans
    (by decide)

end Shopifyhv

namespace Shopifyhv

/-- C14: `OAuth` takes the first `hmac` value as the claimed signature and
signs the parameters without any `hmac` value. Two parameter sets that agree
on the keys other than `hmac` and on the first `hmac` value have the same
canonical string and the same verdict under every secret, whatever further
`hmac` values they carry; the canonical string of a set is that of the set
without its `hmac` entry. -/
theorem OAuth_first_hmac_only (L : StdLib) (P Q : Values) (secret : Bytes) (wf : P.WF)
    (hrest : (P.Del (str "hmac")).Perm (Q.Del (str "hmac")))
    (hfirst : (P.index (str "hmac")).head? = (Q.index (str "hmac")).head?) :
    OAuth.encoded P = OAuth.encoded Q ∧
    OAuth L P secret = OAuth L Q secret ∧
    (∀ (P₁ P₂ : Values) (vs : List Bytes), str "hmac" ∉ (P₁ ++ P₂).keys →
      OAuth.encoded (P₁ ++ (str "hmac", vs) :: P₂) = (P₁ ++ P₂).Encode) := by
  have henc : OAuth.encoded P = OAuth.encoded Q := by
    unfold OAuth.encoded
    exact Encode_perm hrest (WF_Del wf _)
  refine ⟨henc, ?_, ?_⟩
  · rw [OAuth_eq, OAuth_eq, henc]
    cases hp : P.index (str "hmac") with
    | nil =>
      cases hq : Q.index (str "hmac") with
      | nil => rfl
      | cons b _ => rw [hp, hq] at hfirst; simp at hfirst
    | cons a _ =>
      cases hq : Q.index (str "hmac") with
      | nil => rw [hp, hq] at hfirst; simp at hfirst
      | cons b _ =>
        rw [hp, hq] at hfirst
        simp only [List.head?_cons, Option.some.injEq] at hfirst
        rw [hfirst]
  · intro P₁ P₂ vs hk
    unfold OAuth.encoded
    rw [Del_insert P₁ P₂ _ vs hk]

/-- Witness of C14: the parameters `hmac=00&hmac=11&a=1` and
`a=1&hmac=00&hmac=22&hmac=33`. -/
theorem OAuth_first_hmac_only_witness :
    OAuth sampleLib [(str "hmac", [str "00", str "11"]), (str "a", [str "1"])] (str "k") =
      OAuth sampleLib [(str "a", [str "1"]), (str "hmac", [str "00", str "22", str "33"])]
        (str "k") :=
  (OAuth_first_hmac_only sampleLib
    [(str "hmac", [str "00", str "11"]), (str "a", [str "1"])]
    [(str "a", [str "1"]), (str "hmac", [str "00", str "22", str "33"])] (str "k")
    (by unfold Values.WF; decide) (by decide) (by decide)).2.1

/-- C15, as stated, fails: with the empty secret each of the four validators
accepts a request that is signed with the empty key (sample library). -/
theorem empty_secret_counterexample :
    OAuth sampleLib
        [(str "a", [str "1"]),
          (str "hmac", [hexEncodeToString (sampleLib.hmacSHA256 [] (str "a=1"))])] [] = true ∧
    AppProxy sampleLib
        [(str "a", [str "1"]),
          (str "signature", [hexEncodeToString (sampleLib.hmacSHA256 [] (str "a=1"))])] [] =
      true ∧
    Webhook sampleLib
        (base64StdEncodeToString (hexEncodeToString (sampleLib.hmacSHA256 [] (str "{}"))))
        (str "{}") [] = true ∧
    AppBridge sampleLib (bearer (str "hd") samplePayloadSeg sampleSignatureSegNoSecret)
        (str "key") [] 3 = (str "shop", true) := by
  set_option maxRecDepth 100000 in
  decide

/-- C15, amended: with the empty secret every validator returns a verdict as
with any other secret, and the verdict is not always a failure: `OAuth`,
`AppProxy` and `Webhook` return true exactly when the claimed signature is the
encoded HMAC-SHA256 under the empty key, `AppBridge` accepts exactly under
the conditions of the specification with the empty key, and a failure of
`AppBridge` carries the empty shop. -/
theorem empty_secret_verdicts (L : StdLib) (params : Values) (header body auth key : Bytes)
    (now : Int) :
    (OAuth L params [] = true ↔
      ∃ sig rest, params.index (str "hmac") = sig :: rest ∧
        sig = hexEncodeToString (L.hmacSHA256 [] (OAuth.encoded params))) ∧
    (AppProxy L params [] = true ↔
      ∃ sig rest, params.index (str "signature") = sig :: rest ∧
        sig = hexEncodeToString (L.hmacSHA256 [] (AppProxy.encoded params))) ∧
    (Webhook L header body [] = true ↔
      header = base64StdEncodeToString (hexEncodeToString (L.hmacSHA256 [] body))) ∧
    (∀ shop, AppBridge L auth key [] now = (shop, true) ↔ Accepted L auth key [] now shop) ∧
    ((AppBridge L auth key [] now).2 = false → AppBridge L auth key [] now = ([], false)) := by
  refine ⟨?_, ?_, ?_, fun shop => AppBridge_accepted_iff L auth key [] now shop, fun hfail => ?_⟩
  · rw [OAuth_eq]
    cases h : params.index (str "hmac") with
    | nil => simp
    | cons sig rest => simp [hmacEqual_iff]
  · rw [AppProxy_eq]
    cases h : params.index (str "signature") with
    | nil => simp
    | cons sig rest => simp [hmacEqual_iff]
  · simp only [Webhook, hmacEqual_iff]
  · rcases AppBridge_cases L auth key [] now with h | ⟨shop, _, h⟩
    · exact h
    · rw [h] at hfail
      simp at hfail

/-- C17: the canonicalization of `AppProxy` is not injective. The parameter
sets `a = 1b=2` and `a = 1, b = 2` are different and both give `a=1b=2`; the
sets `a = 1,2` and `a = 1, 2` are different and both give `a=1,2`; with the
same claimed signature `AppProxy` returns the same verdict on both sets of a
pair, under every secret. -/
theorem AppProxy_not_injective (L : StdLib) (sig secret : Bytes) :
    AppProxy.encoded [(str "a", [str "1b=2"])] = str "a=1b=2" ∧
    AppProxy.encoded [(str "a", [str "1"]), (str "b", [str "2"])] = str "a=1b=2" ∧
    Values.index [(str "a", [str "1b=2"])] (str "a") ≠
      Values.index [(str "a", [str "1"]), (str "b", [str "2"])] (str "a") ∧
    AppProxy.encoded [(str "a", [str "1,2"])] = str "a=1,2" ∧
    AppProxy.encoded [(str "a", [str "1", str "2"])] = str "a=1,2" ∧
    Values.index [(str "a", [str "1,2"])] (str "a") ≠
      Values.index [(str "a", [str "1", str "2"])] (str "a") ∧
    AppProxy L [(str "signature", [sig]), (str "a", [str "1b=2"])] secret =
      AppProxy L [(str "signature", [sig]), (str "a", [str "1"]), (str "b", [str "2"])] secret ∧
    AppProxy L [(str "signature", [sig]), (str "a", [str "1,2"])] secret =
      AppProxy L [(str "signature", [sig]), (str "a", [str "1", str "2"])] secret := by
  have e1 : AppProxy.encoded [(str "a", [str "1b=2"])] = str "a=1b=2" := by decide
  have e2 : AppProxy.encoded [(str "a", [str "1"]), (str "b", [str "2"])] = str "a=1b=2" := by
    decide
  have e3 : AppProxy.encoded [(str "a", [str "1,2"])] = str "a=1,2" := by decide
  have e4 : AppProxy.encoded [(str "a", [str "1", str "2"])] = str "a=1,2" := by decide
  have hidx : ∀ P : Values, Values.index ((str "signature", [sig]) :: P) (str "signature") =
      [sig] := by
    intro P
    simp [Values.index]
  refine ⟨e1, e2, by decide, e3, e4, by decide, ?_, ?_⟩
  · rw [AppProxy_eq, AppProxy_eq, hidx, hidx, AppProxy_encoded_cons_signature,
      AppProxy_encoded_cons_signature, e1, e2]
  · rw [AppProxy_eq, AppProxy_eq, hidx, hidx, AppProxy_encoded_cons_signature,
      AppProxy_encoded_cons_signature, e3, e4]

end Shopifyhv

namespace Shopifyhv

/-- C18: `AppBridge` can succeed with the empty shop. When the empty string
parses as a URL with the empty hostname, as it does for Go's `url.Parse`, a
correctly signed token whose payload carries the empty `iss` and `dest`, the
key as `aud` and `nbf <= now <= exp` is accepted with the empty shop. -/
theorem AppBridge_empty_shop (L : StdLib) (h p sg rawPayload key secret : Bytes) (now : Int)
    (payload : Payload) (emptyURL : L.URL)
    (hh : (46 : Byte) ∉ h) (hp : (46 : Byte) ∉ p) (hsg : (46 : Byte) ∉ sg)
    (hraw : L.rawURLDecodeString p = some rawPayload)
    (hjson : L.jsonUnmarshal rawPayload = some payload)
    (hiss : payload.Issuer = []) (hdest : payload.Destination = [])
    (hparse : L.urlParse [] = some emptyURL) (hhost : L.Hostname emptyURL = [])
    (haud : payload.Audience = key)
    (hnbf : payload.NotBefore ≤ now) (hexp : now ≤ payload.ExpirationTime)
    (hsig : L.rawURLDecodeString sg = some (L.hmacSHA256 secret (h ++ str "." ++ p))) :
    AppBridge L (bearer h p sg) key secret now = ([], true) := by
  have hacc : Accepted L (bearer h p sg) key secret now [] :=
    ⟨h, p, sg, rawPayload, payload, emptyURL, emptyURL, _, rfl, hh, hp, hsg, hraw, hjson, hnbf,
      hexp, hiss ▸ hparse, hdest ▸ hparse, rfl, haud, hsig, rfl, hhost.symm⟩
  exact (AppBridge_accepted_iff L _ key secret now []).2 hacc

/-- Witness of C18: the token without `iss` and `dest` in the sample library
whose URL parser accepts the empty string, at `now = 3`. -/
theorem AppBridge_empty_shop_witness :
    AppBridge sampleLibLax (bearer (str "hd") bareTokenPayloadSeg bareTokenSignatureSeg)
      (str "key") (str "s") 3 = ([], true) := by
  set_option maxRecDepth 100000 in
  exact AppBridge_empty_shop sampleLibLax (str "hd") bareTokenPayloadSeg bareTokenSignatureSeg
    (str ",,key,eeeee,nn") (str "key") (str "s") 3
    { Issuer := [], Destination := [], Audience := str "key", Subject := [],
      ExpirationTime := 5, NotBefore := 2, IssuedAt := 0, TokenID := [], SessionID := [] }
    (([], []) : Bytes × Bytes)
    (by decide) (by decide) (by decide) (by decide) (by decide) rfl rfl
    (by show sampleParseLax [] = some ([], []); decide) rfl (by decide) (by decide) (by decide)
    (by decide)

/-- C19: `OAuth` returns false whenever the first `hmac` value is not 64 bytes
long or holds a byte outside `0-9a-f`; in particular the correct digest
written in upper-case hexadecimal is rejected when it holds a letter. -/
theorem OAuth_rejects_non_hex (L : StdLib) (params : Values) (secret sig : Bytes)
    (rest : List Bytes) (hidx : params.index (str "hmac") = sig :: rest) :
    ((sig.length ≠ 64 ∨ ∃ b ∈ sig, isLowerHex b = false) → OAuth L params secret = false) ∧
    (sig = hexEncodeUpper (L.hmacSHA256 secret (OAuth.encoded params)) →
      (∃ b ∈ sig, isUpperLetter b = true) → OAuth L params secret = false) := by
  have hmain : (sig.length ≠ 64 ∨ ∃ b ∈ sig, isLowerHex b = false) →
      OAuth L params secret = false := by
    intro hbad
    cases hv : OAuth L params secret with
    | false => rfl
    | true =>
      rw [OAuth_eq, hidx] at hv
      have heq := (hmacEqual_iff _ _).1 hv
      rcases hbad with hlen | ⟨b, hb, hlow⟩
      · have := congrArg List.length heq
        rw [hexEncodeToString_length, L.hmacSHA256_length] at this
        exact absurd this hlen
      · rw [heq] at hb
        rw [hexEncodeToString_lower _ b hb] at hlow
        exact absurd hlow (by decide)
  refine ⟨hmain, fun _ ⟨b, hb, hup⟩ => hmain (Or.inr ⟨b, hb, isLowerHex_of_isUpperLetter b hup⟩)⟩

/-- Witness of C19: the digest of the sample library in upper-case
hexadecimal as the only `hmac` value. -/
theorem OAuth_rejects_non_hex_witness :
    OAuth sampleLib [(str "hmac", [hexEncodeUpper (sampleDigest (str "k") [])])] (str "k") =
      false :=
  (OAuth_rejects_non_hex sampleLib [(str "hmac", [hexEncodeUpper (sampleDigest (str "k") [])])]
    (str "k") (hexEncodeUpper (sampleDigest (str "k") [])) [] (by decide)).2 (by decide)
    (by decide)

/-- C20: `Webhook` returns false whenever the header value is not 88 bytes
long, in particular when the header is missing or empty: the computed value
is the padded base64 of a hexadecimal text of 64 characters and has 88
bytes. -/
theorem Webhook_rejects_wrong_length (L : StdLib) (header body secret : Bytes) :
    (base64StdEncodeToString (hexEncodeToString (L.hmacSHA256 secret body))).length = 88 ∧
    (header.length ≠ 88 → Webhook L header body secret = false) ∧
    Webhook L [] body secret = false := by
  have hlen : (base64StdEncodeToString (hexEncodeToString (L.hmacSHA256 secret body))).length =
      88 := by
    rw [base64StdEncodeToString_length, hexEncodeToString_length, L.hmacSHA256_length]
  have hmain : ∀ hd : Bytes, hd.length ≠ 88 → Webhook L hd body secret = false := by
    intro hd hne
    cases hv : Webhook L hd body secret with
    | false => rfl
    | true =>
      simp only [Webhook, hmacEqual_iff] at hv
      rw [hv] at hne
      exact absurd hlen hne
  exact ⟨hlen, hmain header, hmain [] (by decide)⟩

end Shopifyhv
